import Mathlib

/-!
# Sequential mean shift (`MeanShiftSecuencial.cpp`)

A shallow embedding of `applyMeanShift` and the helpers it uses.  The control
structure (loop nests, bounds tests, guards, the in-place write) is embedded
once; the arithmetic is embedded twice.

* The definitions in `MeanShift` take the floating-point arithmetic as exact
  rational arithmetic.  The source only ever *compares* the Euclidean distances
  `colorDist` / `spatialDist` with non-negative constants, so this embedding
  keeps the radicand (`colorDistSq`, `spatialDistSq`) and compares it with the
  square of the constant: for `t ≥ 0`, `sqrt s ≤ t ↔ s ≤ t * t`.  It carries the
  statements about control flow, data flow and exact arithmetic.
* The definitions in `MeanShift.F32` round every operation to binary32, as the
  compiled program does.  They carry the statements about the values the
  program computes and writes.
* `cv::Mat` of `Vec3b` is a pair of dimensions and a pixel accessor.
* The `do … while` loop is bounded by `iter < maxIter`; it is embedded with fuel
  and returns `none` when the fuel runs out or when `operator/` is handed a zero
  divisor.
-/

namespace MeanShift

/-! ## Parameters (lines 12-17) -/

/-- Spatial radius `hs = 8.0f`. -/
def hs : Nat := 8

/-- Colour radius `hr = 16.0f`. -/
def hr : ℚ := 16

/-- Iteration cap `maxIter = 5`. -/
def maxIter : Nat := 5

/-- Colour tolerance `tol_color = 0.3f`. -/
def tol_color : ℚ := 3 / 10

/-- Spatial tolerance `tol_spatial = 0.3f`. -/
def tol_spatial : ℚ := 3 / 10

/-! ## Data model -/

/-- Three unsigned bytes, the `cv::Vec3b` pixel type. -/
structure Vec3b where
  c0 : Fin 256
  c1 : Fin 256
  c2 : Fin 256
  deriving DecidableEq

/-- An 8-bit 3-channel image: its dimensions and the accessor `at<Vec3b>(i, j)`. -/
structure Mat where
  rows : Nat
  cols : Nat
  pix : Int → Int → Vec3b

/-- The assignment `labImg.at<Vec3b>(y, x) = v` (line 104). -/
def Mat.set (m : Mat) (y x : Int) (v : Vec3b) : Mat :=
  { m with pix := fun i j => if i = y ∧ j = x then v else m.pix i j }

/-- Cell `(i, j)` lies inside the image. -/
def Mat.inBounds (m : Mat) (i j : Int) : Prop :=
  0 ≤ j ∧ j < m.cols ∧ 0 ≤ i ∧ i < m.rows

instance (m : Mat) (i j : Int) : Decidable (m.inBounds i j) := by
  unfold Mat.inBounds; infer_instance

/-- The 5-dimensional point `struct Point5D` (lines 20-46). -/
structure Point5D where
  x : ℚ
  y : ℚ
  l : ℚ
  a : ℚ
  b : ℚ
  deriving DecidableEq

/-- Radicand of `colorDist` (line 29): `p.colorDist q = sqrt (p.colorDistSq q)`. -/
def Point5D.colorDistSq (p q : Point5D) : ℚ :=
  (p.l - q.l) * (p.l - q.l) + (p.a - q.a) * (p.a - q.a) + (p.b - q.b) * (p.b - q.b)

/-- Radicand of `spatialDist` (line 34): `p.spatialDist q = sqrt (p.spatialDistSq q)`. -/
def Point5D.spatialDistSq (p q : Point5D) : ℚ :=
  (p.x - q.x) * (p.x - q.x) + (p.y - q.y) * (p.y - q.y)

/-- The sum `operator+` (lines 38-40) in exact arithmetic; `F32.add` rounds. -/
def Point5D.add (p q : Point5D) : Point5D :=
  ⟨p.x + q.x, p.y + q.y, p.l + q.l, p.a + q.a, p.b + q.b⟩

/-- The quotient `operator/` (lines 43-45) in exact arithmetic, undefined at `0`;
`F32.div` rounds. -/
def Point5D.div (p : Point5D) (val : ℚ) : Option Point5D :=
  if val = 0 then none
  else some ⟨p.x / val, p.y / val, p.l / val, p.a / val, p.b / val⟩

/-- The conversion `getPoint5D` (lines 49-55) of pixel `(i, j)` to a 5-D point. -/
def getPoint5D (i j : Int) (labImg : Mat) : Point5D :=
  let color := labImg.pix i j
  ⟨(j : ℚ), (i : ℚ),
    (color.c0.val : ℚ) * 100 / 255,
    (color.c1.val : ℚ) - 128,
    (color.c2.val : ℚ) - 128⟩

/-! ## One iteration of the convergence loop (lines 70-95) -/

/-- Values taken by the loop variables `j` and `i` (lines 75-76): `-hs, …, hs`. -/
def offsets : List Int :=
  (List.range (2 * hs + 1)).map fun (k : Nat) => (k : Int) - (hs : Int)

/-- Cells `(ny, nx)` for which the loop nest of lines 75-89 passes the bounds
test of line 80, in the order in which it visits them. -/
def scanWindow (labImg : Mat) (y x : Int) : List (Int × Int) :=
  offsets.flatMap fun j =>
    offsets.filterMap fun i =>
      let nx := x + i
      let ny := y + j
      if 0 ≤ nx ∧ nx < (labImg.cols : Int) ∧ 0 ≤ ny ∧ ny < (labImg.rows : Int) then
        some (ny, nx)
      else none

/-- The test of lines 82-83: `spatialDist ≤ hs` and `colorDist ≤ hr`. -/
def qualifies (current neighbor : Point5D) : Bool :=
  decide (current.spatialDistSq neighbor ≤ (hs : ℚ) * (hs : ℚ)) &&
    decide (current.colorDistSq neighbor ≤ hr * hr)

/-- The accumulators `sum` and `count` (lines 71-72). -/
structure Accum where
  sum : Point5D
  count : Nat
  deriving DecidableEq

/-- Lines 81-86: read the neighbour and add it to the accumulators when it
passes the test. -/
def visit (labImg : Mat) (current : Point5D) (acc : Accum) (cell : Int × Int) : Accum :=
  let neighbor := getPoint5D cell.1 cell.2 labImg
  if qualifies current neighbor then ⟨acc.sum.add neighbor, acc.count + 1⟩ else acc

/-- Lines 71-89: the accumulators after the scan of the window. -/
def accumulate (labImg : Mat) (y x : Int) (current : Point5D) : Accum :=
  (scanWindow labImg y x).foldl (visit labImg current) ⟨⟨0, 0, 0, 0, 0⟩, 0⟩

/-- Lines 71-93 in exact arithmetic: the estimate after one iteration started
from `current`; `F32.meanStep` rounds. -/
def meanStep (labImg : Mat) (y x : Int) (current : Point5D) : Option Point5D :=
  let acc := accumulate labImg y x current
  if acc.count > 0 then acc.sum.div (acc.count : ℚ) else some current

/-- The loop condition of lines 96-98. -/
def continueTest (current prev : Point5D) (iter : Nat) : Bool :=
  decide (tol_color * tol_color < current.colorDistSq prev) &&
    decide (tol_spatial * tol_spatial < current.spatialDistSq prev) &&
    decide (iter < maxIter)

/-! ## The convergence loop and the pass over the image -/

/-- The loop variables when the `do … while` loop is left. -/
structure LoopState where
  current : Point5D
  prev : Point5D
  iter : Nat
  deriving DecidableEq

/-- The `do … while` loop of lines 69-98, entered with the given `current` and
`iter`; `fuel` bounds the number of iterations that may still be run. -/
def doWhile (labImg : Mat) (y x : Int) : Nat → Point5D → Nat → Option LoopState
  | 0, _, _ => none
  | fuel + 1, current, iter =>
    let prev := current
    match meanStep labImg y x current with
    | none => none
    | some current =>
      let iter := iter + 1
      if continueTest current prev iter then doWhile labImg y x fuel current iter
      else some ⟨current, prev, iter⟩

/-- Lines 64-98: the convergence loop of pixel `(y, x)`. -/
def pixelLoop (labImg : Mat) (y x : Int) : Option LoopState :=
  doWhile labImg y x maxIter (getPoint5D y x labImg) 0

/-- The conversion `static_cast<int>` of a float: truncation toward zero. -/
def truncToInt (q : ℚ) : Int :=
  Int.tdiv q.num (q.den : Int)

/-- The conversion `saturate_cast<uchar>` of an `int`. -/
def saturate_cast (v : Int) : Fin 256 :=
  if _h0 : v < 0 then 0
  else if _h1 : 255 < v then 255
  else ⟨v.toNat, by omega⟩

/-- Lines 101-106: the three bytes written back for the estimate `current`. -/
def toVec3b (current : Point5D) : Vec3b :=
  let l := truncToInt (current.l * 255 / 100)
  let a := truncToInt (current.a + 128)
  let b := truncToInt (current.b + 128)
  ⟨saturate_cast l, saturate_cast a, saturate_cast b⟩

/-- Lines 64-106: the body of the pixel loops for pixel `(y, x)`. -/
def processPixel (labImg : Mat) (y x : Int) : Option Mat :=
  (pixelLoop labImg y x).map fun st => labImg.set y x (toVec3b st.current)

/-- The function `applyMeanShift` (lines 58-109). -/
def applyMeanShift (labImg : Mat) : Option Mat :=
  let rows := labImg.rows
  let cols := labImg.cols
  (List.range rows).foldlM
    (fun img (y : Nat) =>
      (List.range cols).foldlM (fun img (x : Nat) => processPixel img (y : Int) (x : Int)) img)
    labImg

/-! ## Auxiliary definitions -/

/-- Cells of the scanned window whose point passes the test of lines 82-83. -/
def qualifyingCells (labImg : Mat) (y x : Int) (current : Point5D) : List (Int × Int) :=
  (scanWindow labImg y x).filter fun c => qualifies current (getPoint5D c.1 c.2 labImg)

/-- The component-wise arithmetic mean of a list of points, as the specification
words it: the sum of each component divided by the number of points. -/
def meanOf (ps : List Point5D) : Point5D :=
  ⟨(ps.map Point5D.x).sum / ps.length, (ps.map Point5D.y).sum / ps.length,
    (ps.map Point5D.l).sum / ps.length, (ps.map Point5D.a).sum / ps.length,
    (ps.map Point5D.b).sum / ps.length⟩

/-- The point `getPoint5D` builds for a pixel at `(i, j)` that holds `color`. -/
def labPoint (i j : Int) (color : Vec3b) : Point5D :=
  ⟨(j : ℚ), (i : ℚ), (color.c0.val : ℚ) * 100 / 255, (color.c1.val : ℚ) - 128,
    (color.c2.val : ℚ) - 128⟩

/-- The pixels in the order in which the loops of lines 62-63 process them. -/
def pixelOrder (rows cols : Nat) : List (Int × Int) :=
  (List.range rows).flatMap fun (y : Nat) =>
    (List.range cols).map fun (x : Nat) => ((y : Int), (x : Int))

/-- The body of the pixel loops at the cell `p`. -/
def processCell (img : Mat) (p : Int × Int) : Option Mat :=
  processPixel img p.1 p.2

/-- The buffer as it stands when pixel `(r, c)` is processed: the cells that
precede `(r, c)` in row-major order hold what the pass leaves in them, the other
cells hold the input. -/
def bufferAt (labImg out : Mat) (r c : Int) : Mat :=
  { labImg with
    pix := fun i j =>
      if labImg.inBounds i j ∧ (i < r ∨ (i = r ∧ j < c)) then out.pix i j else labImg.pix i j }

/-- Row-major order on cells. -/
def rowMajorLt (p q : Int × Int) : Prop :=
  p.1 < q.1 ∨ (p.1 = q.1 ∧ p.2 < q.2)

/-- The component-wise sum of a list of points. -/
def sumOf (ps : List Point5D) : Point5D :=
  ⟨(ps.map Point5D.x).sum, (ps.map Point5D.y).sum, (ps.map Point5D.l).sum,
    (ps.map Point5D.a).sum, (ps.map Point5D.b).sum⟩

/-- Rounding of a coordinate to the nearest integer. -/
def roundCoord (q : ℚ) : Int :=
  ⌊q + 1 / 2⌋

/-- The window as the specification words it: the in-bounds cells of the
`(2 * hs + 1) × (2 * hs + 1)` square centred on the rounded spatial coordinates
of `center`. -/
def inSpecWindow (labImg : Mat) (center : Point5D) (ny nx : Int) : Prop :=
  labImg.inBounds ny nx ∧ |nx - roundCoord center.x| ≤ (hs : Int) ∧
    |ny - roundCoord center.y| ≤ (hs : Int)

instance (labImg : Mat) (center : Point5D) (ny nx : Int) :
    Decidable (inSpecWindow labImg center ny nx) := by
  unfold inSpecWindow; infer_instance

/-! ## Concrete grids -/

/-- A 1 × 2 grid: bytes `(0, 128, 128)` at column 0 and `(25, 128, 128)` at column 1. -/
def gridPair : Mat :=
  ⟨1, 2, fun _ j => if j = 0 then ⟨0, 128, 128⟩ else ⟨25, 128, 128⟩⟩

/-- A 1 × 13 grid: bytes `(0, 128, 128)` at column 0 and `(25, 128, 128)` elsewhere. -/
def gridRow13 : Mat :=
  ⟨1, 13, fun _ j => if j = 0 then ⟨0, 128, 128⟩ else ⟨25, 128, 128⟩⟩

/-- A 1 × 2 grid holding `(50, 128, 128)` in both cells. -/
def gridFlatPair : Mat :=
  ⟨1, 2, fun _ _ => ⟨50, 128, 128⟩⟩

/-- A 2 × 2 grid: `(0, 128, 128)` at the corner `(0, 0)` and `(255, 128, 128)` elsewhere. -/
def gridCorner : Mat :=
  ⟨2, 2, fun i j => if i = 0 ∧ j = 0 then ⟨0, 128, 128⟩ else ⟨255, 128, 128⟩⟩

/-- A 1 × 1 grid holding `(0, 128, 128)`. -/
def gridDot : Mat :=
  ⟨1, 1, fun _ _ => ⟨0, 128, 128⟩⟩

/-- The estimate of pixel `(0, 0)` of `gridRow13` after its first iteration. -/
def row13Estimate : Point5D :=
  ⟨4, 0, 4000 / 459, 0, 0⟩

/-- The loop variables with which pixel `(0, 0)` of `gridFlatPair` leaves its loop. -/
def flatPairExit : LoopState :=
  ⟨⟨1 / 2, 0, 1000 / 51, 0, 0⟩, ⟨0, 0, 1000 / 51, 0, 0⟩, 1⟩

/-! ## Definitions for the colour range and the window dependence -/

/-- The rational `q` is an integer. -/
def integerValued (q : ℚ) : Prop :=
  ((⌊q⌋ : Int) : ℚ) = q

instance (q : ℚ) : Decidable (integerValued q) := by
  unfold integerValued; infer_instance

/-- The estimate of pixel `(0, 0)` of `gridPair` after its first iteration. -/
def pairEstimate : Point5D :=
  ⟨1 / 2, 0, 250 / 51, 0, 0⟩

/-- The colour components of `p` lie between those of the converted byte
triples `lo` and `hi`. -/
def inColorBox (lo hi : Vec3b) (p : Point5D) : Prop :=
  ((labPoint 0 0 lo).l ≤ p.l ∧ p.l ≤ (labPoint 0 0 hi).l) ∧
    ((labPoint 0 0 lo).a ≤ p.a ∧ p.a ≤ (labPoint 0 0 hi).a) ∧
    ((labPoint 0 0 lo).b ≤ p.b ∧ p.b ≤ (labPoint 0 0 hi).b)

/-- Each byte of `v` lies between the corresponding bytes of `lo` and `hi`. -/
def bytesBetween (lo hi v : Vec3b) : Prop :=
  (lo.c0 ≤ v.c0 ∧ v.c0 ≤ hi.c0) ∧ (lo.c1 ≤ v.c1 ∧ v.c1 ≤ hi.c1) ∧ (lo.c2 ≤ v.c2 ∧ v.c2 ≤ hi.c2)

instance (lo hi v : Vec3b) : Decidable (bytesBetween lo hi v) := by
  unfold bytesBetween; infer_instance

/-- A 1 × 20 grid holding `(50, 128, 128)` in every cell. -/
def gridLong : Mat :=
  ⟨1, 20, fun _ _ => ⟨50, 128, 128⟩⟩

/-- The grid `gridLong` with cell `(0, 15)` changed to `(200, 128, 128)`. -/
def gridLongEdited : Mat :=
  ⟨1, 20, fun _ j => if j = 15 then ⟨200, 128, 128⟩ else ⟨50, 128, 128⟩⟩

/-! ## The binary32 embedding

The definitions of this section repeat lines 20-109 with every floating-point
operation rounded to IEEE 754 binary32 (round to nearest, ties to even, gradual
underflow).  A binary32 value is kept as the rational number it denotes.
Results of magnitude `2 ^ 128` or more and NaN are not modelled: coordinates are
`int` values and colour components stay within a few hundred, so no operation
of the program overflows. -/

namespace F32

/-- The power `2 ^ e` for an integer exponent. -/
def pow2 (e : Int) : ℚ :=
  if 0 ≤ e then ((2 ^ e.toNat : Nat) : ℚ) else 1 / ((2 ^ (-e).toNat : Nat) : ℚ)

/-- The binary logarithm of `n`, rounded down, computed by halving at most `fuel`
times. -/
def log2Go : Nat → Nat → Nat
  | 0, _ => 0
  | fuel + 1, n => if 2 ≤ n then log2Go fuel (n / 2) + 1 else 0

/-- The binary logarithm of `n ≥ 1`, rounded down. -/
def log2 (n : Nat) : Nat :=
  log2Go n n

/-- The exponent `e` with `2 ^ e ≤ a < 2 ^ (e + 1)`, for `a > 0`. -/
def floorLog2 (a : ℚ) : Int :=
  let e0 : Int := (log2 a.num.natAbs : Int) - (log2 a.den : Int)
  if pow2 e0 ≤ a then e0 else e0 - 1

/-- Rounding to the nearest integer, ties to even. -/
def roundEven (q : ℚ) : Int :=
  let n : Int := ⌊q⌋
  let r : ℚ := q - (n : ℚ)
  if r < 1 / 2 then n
  else if 1 / 2 < r then n + 1
  else if n % 2 = 0 then n
  else n + 1

/-- Rounding of a real result to binary32: 24 significant bits, exponent at
least `-126`. -/
def round (q : ℚ) : ℚ :=
  if q = 0 then 0
  else
    let e : Int := max (floorLog2 |q|) (-126)
    let ulp : ℚ := pow2 (e - 23)
    (roundEven (q / ulp) : ℚ) * ulp

/-- The float sum `a + b`. -/
def fadd (a b : ℚ) : ℚ := round (a + b)

/-- The float difference `a - b`. -/
def fsub (a b : ℚ) : ℚ := round (a - b)

/-- The float product `a * b`. -/
def fmul (a b : ℚ) : ℚ := round (a * b)

/-- The float quotient `a / b`, for `b ≠ 0`. -/
def fdiv (a b : ℚ) : ℚ := round (a / b)

/-- The conversion of an `int` to `float`. -/
def ofInt (n : Int) : ℚ := round (n : ℚ)

/-- One bit of the integer square root: `isqrtGo n b r` extends `r` by the bits
below position `b`. -/
def isqrtGo (n : Nat) : Nat → Nat → Nat
  | 0, r => r
  | b + 1, r => isqrtGo n b (if (r + 2 ^ b) * (r + 2 ^ b) ≤ n then r + 2 ^ b else r)

/-- The integer square root, the largest `r` with `r * r ≤ n`. -/
def isqrt (n : Nat) : Nat :=
  isqrtGo n (log2 n / 2 + 1) 0

/-- The float `sqrt` of a float `s ≥ 0`: the binary32 value nearest to the real
square root. -/
def sqrt (s : ℚ) : ℚ :=
  if s ≤ 0 then 0
  else
    let k : Int := floorLog2 s / 2
    let t : ℚ := s / pow2 (2 * (k - 23))
    let n : Nat := isqrt (⌊t⌋ : Int).toNat
    let mid : ℚ := ((n : ℚ) + 1 / 2) * ((n : ℚ) + 1 / 2)
    let m : Nat :=
      if t < mid then n
      else if mid < t then n + 1
      else if n % 2 = 0 then n
      else n + 1
    (m : ℚ) * pow2 (k - 23)

/-- Spatial radius `hs = 8.0f`. -/
def hs : ℚ := 8

/-- Colour radius `hr = 16.0f`. -/
def hr : ℚ := 16

/-- Colour tolerance `tol_color = 0.3f`, the binary32 value nearest to `0.3`. -/
def tol_color : ℚ := round (3 / 10)

/-- Spatial tolerance `tol_spatial = 0.3f`. -/
def tol_spatial : ℚ := round (3 / 10)

/-- The distance `colorDist` (lines 28-30). -/
def colorDist (p q : Point5D) : ℚ :=
  sqrt (fadd (fadd (fmul (fsub p.l q.l) (fsub p.l q.l)) (fmul (fsub p.a q.a) (fsub p.a q.a)))
    (fmul (fsub p.b q.b) (fsub p.b q.b)))

/-- The distance `spatialDist` (lines 33-35). -/
def spatialDist (p q : Point5D) : ℚ :=
  sqrt (fadd (fmul (fsub p.x q.x) (fsub p.x q.x)) (fmul (fsub p.y q.y) (fsub p.y q.y)))

/-- The sum `operator+` (lines 38-40). -/
def add (p q : Point5D) : Point5D :=
  ⟨fadd p.x q.x, fadd p.y q.y, fadd p.l q.l, fadd p.a q.a, fadd p.b q.b⟩

/-- The quotient `operator/` (lines 43-45); `none` stands for the division by
zero, whose results are infinities and NaN. -/
def div (p : Point5D) (val : ℚ) : Option Point5D :=
  if val = 0 then none
  else some ⟨fdiv p.x val, fdiv p.y val, fdiv p.l val, fdiv p.a val, fdiv p.b val⟩

/-- The conversion `getPoint5D` (lines 49-55). -/
def getPoint5D (i j : Int) (labImg : Mat) : Point5D :=
  let color := labImg.pix i j
  ⟨ofInt j, ofInt i,
    fdiv (fmul (ofInt (color.c0.val : Int)) 100) 255,
    fsub (ofInt (color.c1.val : Int)) 128,
    fsub (ofInt (color.c2.val : Int)) 128⟩

/-- The test of lines 82-83. -/
def qualifies (current neighbor : Point5D) : Bool :=
  decide (spatialDist current neighbor ≤ hs) && decide (colorDist current neighbor ≤ hr)

/-- Lines 81-86: read the neighbour and add it to the accumulators when it
passes the test. -/
def visit (labImg : Mat) (current : Point5D) (acc : Accum) (cell : Int × Int) : Accum :=
  let neighbor := getPoint5D cell.1 cell.2 labImg
  if qualifies current neighbor then ⟨add acc.sum neighbor, acc.count + 1⟩ else acc

/-- Lines 71-89: the accumulators after the scan of the window. -/
def accumulate (labImg : Mat) (y x : Int) (current : Point5D) : Accum :=
  (scanWindow labImg y x).foldl (visit labImg current) ⟨⟨0, 0, 0, 0, 0⟩, 0⟩

/-- Lines 71-93: the estimate after one iteration started from `current`. -/
def meanStep (labImg : Mat) (y x : Int) (current : Point5D) : Option Point5D :=
  let acc := accumulate labImg y x current
  if acc.count > 0 then div acc.sum (ofInt (acc.count : Int)) else some current

/-- The loop condition of lines 96-98. -/
def continueTest (current prev : Point5D) (iter : Nat) : Bool :=
  decide (tol_color < colorDist current prev) &&
    decide (tol_spatial < spatialDist current prev) &&
    decide (iter < maxIter)

/-- The `do … while` loop of lines 69-98, with `fuel` bounding the iterations
that may still be run. -/
def doWhile (labImg : Mat) (y x : Int) : Nat → Point5D → Nat → Option LoopState
  | 0, _, _ => none
  | fuel + 1, current, iter =>
    let prev := current
    match meanStep labImg y x current with
    | none => none
    | some current =>
      let iter := iter + 1
      if continueTest current prev iter then doWhile labImg y x fuel current iter
      else some ⟨current, prev, iter⟩

/-- Lines 64-98: the convergence loop of pixel `(y, x)`. -/
def pixelLoop (labImg : Mat) (y x : Int) : Option LoopState :=
  doWhile labImg y x maxIter (getPoint5D y x labImg) 0

/-- Lines 101-106: the three bytes written back for the estimate `current`. -/
def toVec3b (current : Point5D) : Vec3b :=
  let l := truncToInt (fdiv (fmul current.l 255) 100)
  let a := truncToInt (fadd current.a 128)
  let b := truncToInt (fadd current.b 128)
  ⟨saturate_cast l, saturate_cast a, saturate_cast b⟩

/-- Lines 64-106: the body of the pixel loops for pixel `(y, x)`. -/
def processPixel (labImg : Mat) (y x : Int) : Option Mat :=
  (pixelLoop labImg y x).map fun st => labImg.set y x (toVec3b st.current)

/-- The function `applyMeanShift` (lines 58-109). -/
def applyMeanShift (labImg : Mat) : Option Mat :=
  let rows := labImg.rows
  let cols := labImg.cols
  (List.range rows).foldlM
    (fun img (y : Nat) =>
      (List.range cols).foldlM (fun img (x : Nat) => processPixel img (y : Int) (x : Int)) img)
    labImg

end F32

/-! ## Definitions for the binary32 statements -/

/-- Cells of the scanned window whose point passes the binary32 test of
lines 82-83. -/
def F32.qualifyingCells (labImg : Mat) (y x : Int) (current : Point5D) : List (Int × Int) :=
  (scanWindow labImg y x).filter fun c => F32.qualifies current (F32.getPoint5D c.1 c.2 labImg)

/-- The binary32 sum of a list of points, added one by one from the left to
`Point5D(0, 0, 0, 0, 0)` as line 84 does. -/
def F32.sumSeq (ps : List Point5D) : Point5D :=
  ps.foldl F32.add ⟨0, 0, 0, 0, 0⟩

/-- A 4 × 4 grid holding `(3, 130, 140)` in every cell. -/
def gridFlat3 : Mat :=
  ⟨4, 4, fun _ _ => ⟨3, 130, 140⟩⟩

/-- A 1 × 3 grid holding `(19, 130, 140)` in every cell. -/
def gridFlat19 : Mat :=
  ⟨1, 3, fun _ _ => ⟨19, 130, 140⟩⟩

/-- A 1 × 6 grid: `(19, 128, 128)` in columns 0-2 and `(255, 128, 128)` in columns 3-5. -/
def gridTwoRegion : Mat :=
  ⟨1, 6, fun _ j => if j < 3 then ⟨19, 128, 128⟩ else ⟨255, 128, 128⟩⟩

/-- A 1 × 6 grid holding `(247, 111, 198)` in every cell. -/
def gridFlat247 : Mat :=
  ⟨1, 6, fun _ _ => ⟨247, 111, 198⟩⟩

/-- The binary32 estimate of pixel `(0, 0)` of `gridFlat3` after its first
iteration; its `l` is one unit in the last place below that of the cells. -/
def flat3Estimate : Point5D :=
  ⟨3 / 2, 3 / 2, 4934475 / 4194304, 2, 12⟩

/-! ## Lemmas -/

theorem Point5D.div_eq_some (p : Point5D) {val : ℚ} (h : val ≠ 0) :
    p.div val = some ⟨p.x / val, p.y / val, p.l / val, p.a / val, p.b / val⟩ := by
  simp [Point5D.div, h]

theorem meanStep_eq_of_pos (labImg : Mat) (y x : Int) (current : Point5D)
    (h : 0 < (accumulate labImg y x current).count) :
    meanStep labImg y x current =
      some ⟨(accumulate labImg y x current).sum.x / (accumulate labImg y x current).count,
        (accumulate labImg y x current).sum.y / (accumulate labImg y x current).count,
        (accumulate labImg y x current).sum.l / (accumulate labImg y x current).count,
        (accumulate labImg y x current).sum.a / (accumulate labImg y x current).count,
        (accumulate labImg y x current).sum.b / (accumulate labImg y x current).count⟩ := by
  have hne : ((accumulate labImg y x current).count : ℚ) ≠ 0 := by
    exact_mod_cast Nat.pos_iff_ne_zero.mp h
  simp only [meanStep, gt_iff_lt, h, if_true]
  exact Point5D.div_eq_some _ hne

theorem meanStep_eq_of_zero (labImg : Mat) (y x : Int) (current : Point5D)
    (h : (accumulate labImg y x current).count = 0) :
    meanStep labImg y x current = some current := by
  simp [meanStep, h]

theorem meanStep_isSome (labImg : Mat) (y x : Int) (current : Point5D) :
    ∃ p, meanStep labImg y x current = some p := by
  rcases Nat.eq_zero_or_pos (accumulate labImg y x current).count with h | h
  · exact ⟨_, meanStep_eq_of_zero labImg y x current h⟩
  · exact ⟨_, meanStep_eq_of_pos labImg y x current h⟩

theorem doWhile_succ (labImg : Mat) (y x : Int) (fuel : Nat) (current next : Point5D) (iter : Nat)
    (h : meanStep labImg y x current = some next) :
    doWhile labImg y x (fuel + 1) current iter =
      if continueTest next current (iter + 1) then doWhile labImg y x fuel next (iter + 1)
      else some ⟨next, current, iter + 1⟩ := by
  simp [doWhile, h]

theorem continueTest_iter_lt {current prev : Point5D} {iter : Nat}
    (h : continueTest current prev iter = true) : iter < maxIter := by
  simp [continueTest] at h
  exact h.2

theorem doWhile_some (labImg : Mat) (y x : Int) :
    ∀ (fuel : Nat) (current : Point5D) (iter : Nat), iter < maxIter → maxIter - iter ≤ fuel →
      ∃ st, doWhile labImg y x fuel current iter = some st ∧
        iter + 1 ≤ st.iter ∧ st.iter ≤ maxIter := by
  intro fuel
  induction fuel with
  | zero => intro current iter h1 h2; omega
  | succ n ih =>
    intro current iter h1 h2
    obtain ⟨next, hnext⟩ := meanStep_isSome labImg y x current
    rw [doWhile_succ labImg y x n current next iter hnext]
    by_cases hc : continueTest next current (iter + 1) = true
    · have hlt := continueTest_iter_lt hc
      obtain ⟨st, hst, h3, h4⟩ := ih next (iter + 1) hlt (by omega)
      exact ⟨st, by simp [hc, hst], by omega, h4⟩
    · exact ⟨⟨next, current, iter + 1⟩, by simp [hc], le_refl _, h1⟩

theorem foldl_visit (labImg : Mat) (current : Point5D) :
    ∀ (cells : List (Int × Int)) (acc : Accum),
      cells.foldl (visit labImg current) acc =
        ⟨⟨acc.sum.x + (((cells.filter fun c => qualifies current (getPoint5D c.1 c.2 labImg)).map
              fun c => getPoint5D c.1 c.2 labImg).map Point5D.x).sum,
            acc.sum.y + (((cells.filter fun c => qualifies current (getPoint5D c.1 c.2 labImg)).map
              fun c => getPoint5D c.1 c.2 labImg).map Point5D.y).sum,
            acc.sum.l + (((cells.filter fun c => qualifies current (getPoint5D c.1 c.2 labImg)).map
              fun c => getPoint5D c.1 c.2 labImg).map Point5D.l).sum,
            acc.sum.a + (((cells.filter fun c => qualifies current (getPoint5D c.1 c.2 labImg)).map
              fun c => getPoint5D c.1 c.2 labImg).map Point5D.a).sum,
            acc.sum.b + (((cells.filter fun c => qualifies current (getPoint5D c.1 c.2 labImg)).map
              fun c => getPoint5D c.1 c.2 labImg).map Point5D.b).sum⟩,
          acc.count + (cells.filter fun c => qualifies current (getPoint5D c.1 c.2 labImg)).length⟩ := by
  intro cells
  induction cells with
  | nil => intro acc; simp
  | cons c cs ih =>
    intro acc
    rw [List.foldl_cons, ih]
    by_cases hq : qualifies current (getPoint5D c.1 c.2 labImg) = true
    · simp [visit, hq, List.filter_cons, Point5D.add, add_assoc, Nat.add_comm]
    · simp [visit, hq, List.filter_cons]

theorem accumulate_eq (labImg : Mat) (y x : Int) (current : Point5D) :
    accumulate labImg y x current =
      ⟨⟨(((qualifyingCells labImg y x current).map fun c => getPoint5D c.1 c.2 labImg).map Point5D.x).sum,
          (((qualifyingCells labImg y x current).map fun c => getPoint5D c.1 c.2 labImg).map Point5D.y).sum,
          (((qualifyingCells labImg y x current).map fun c => getPoint5D c.1 c.2 labImg).map Point5D.l).sum,
          (((qualifyingCells labImg y x current).map fun c => getPoint5D c.1 c.2 labImg).map Point5D.a).sum,
          (((qualifyingCells labImg y x current).map fun c => getPoint5D c.1 c.2 labImg).map Point5D.b).sum⟩,
        (qualifyingCells labImg y x current).length⟩ := by
  unfold accumulate
  rw [foldl_visit]
  simp [qualifyingCells]

theorem mem_offsets (k : Int) : k ∈ offsets ↔ -8 ≤ k ∧ k ≤ 8 := by
  unfold offsets hs
  rw [List.mem_map]
  constructor
  · rintro ⟨n, hn, rfl⟩
    rw [List.mem_range] at hn
    constructor <;> push_cast <;> omega
  · rintro ⟨h1, h2⟩
    refine ⟨(k + 8).toNat, ?_, ?_⟩
    · rw [List.mem_range]; omega
    · push_cast; omega

theorem mem_scanWindow (labImg : Mat) (y x ny nx : Int) :
    (ny, nx) ∈ scanWindow labImg y x ↔
      labImg.inBounds ny nx ∧ |nx - x| ≤ (hs : Int) ∧ |ny - y| ≤ (hs : Int) := by
  have hs8 : (hs : Int) = 8 := rfl
  rw [hs8, abs_le, abs_le]
  unfold scanWindow Mat.inBounds
  rw [List.mem_flatMap]
  constructor
  · rintro ⟨j, hj, h⟩
    rw [List.mem_filterMap] at h
    obtain ⟨i, hi, h⟩ := h
    rw [mem_offsets] at hj hi
    by_cases hb : 0 ≤ x + i ∧ x + i < (labImg.cols : Int) ∧ 0 ≤ y + j ∧ y + j < (labImg.rows : Int)
    · simp only [hb, and_self, if_true, Option.some.injEq, Prod.mk.injEq] at h
      obtain ⟨h1, h2⟩ := h
      subst h1 h2
      refine ⟨hb, ⟨?_, ?_⟩, ⟨?_, ?_⟩⟩ <;> omega
    · rw [if_neg hb] at h
      exact absurd h (by simp)
  · rintro ⟨hb, hx, hy⟩
    refine ⟨ny - y, (mem_offsets _).2 ⟨by omega, by omega⟩, ?_⟩
    rw [List.mem_filterMap]
    refine ⟨nx - x, (mem_offsets _).2 ⟨by omega, by omega⟩, ?_⟩
    have e1 : x + (nx - x) = nx := by omega
    have e2 : y + (ny - y) = ny := by omega
    simp only [e1, e2]
    rw [if_pos hb]

theorem truncToInt_natCast (n : Nat) : truncToInt (n : ℚ) = (n : Int) := by
  simp [truncToInt]

theorem saturate_cast_val (c : Fin 256) : saturate_cast (c.val : Int) = c := by
  have h := c.isLt
  unfold saturate_cast
  rw [dif_neg (by omega), dif_neg (by omega)]
  apply Fin.ext
  simp

theorem toVec3b_congr {p q : Point5D} (hl : p.l = q.l) (ha : p.a = q.a) (hb : p.b = q.b) :
    toVec3b p = toVec3b q := by
  simp [toVec3b, hl, ha, hb]

theorem toVec3b_getPoint5D (labImg : Mat) (i j : Int) :
    toVec3b (getPoint5D i j labImg) = labImg.pix i j := by
  have e0 : ((labImg.pix i j).c0.val : ℚ) * 100 / 255 * 255 / 100 = (((labImg.pix i j).c0.val : Nat) : ℚ) := by
    field_simp
  have e1 : ((labImg.pix i j).c1.val : ℚ) - 128 + 128 = (((labImg.pix i j).c1.val : Nat) : ℚ) := by
    ring
  have e2 : ((labImg.pix i j).c2.val : ℚ) - 128 + 128 = (((labImg.pix i j).c2.val : Nat) : ℚ) := by
    ring
  simp only [toVec3b, getPoint5D, e0, e1, e2, truncToInt_natCast, saturate_cast_val]

theorem qualifies_self (p : Point5D) : qualifies p p = true := by
  simp [qualifies, Point5D.spatialDistSq, Point5D.colorDistSq, hs, hr]

theorem self_mem_scanWindow (labImg : Mat) (y x : Int) (hb : labImg.inBounds y x) :
    (y, x) ∈ scanWindow labImg y x := by
  rw [mem_scanWindow]
  exact ⟨hb, by simp, by simp⟩

theorem sum_map_eq_length_mul {α : Type} (cells : List α) (g : α → Point5D) (f : Point5D → ℚ)
    (v : ℚ) (h : ∀ c ∈ cells, f (g c) = v) :
    ((cells.map g).map f).sum = (cells.length : ℚ) * v := by
  induction cells with
  | nil => simp
  | cons c cs ih =>
    rw [List.map_cons, List.map_cons, List.sum_cons, h c (List.mem_cons_self _ _),
      ih (fun d hd => h d (List.mem_cons_of_mem _ hd))]
    push_cast [List.length_cons]
    ring

/-- When every qualifying cell carries the colour of the estimate, one iteration
leaves the colour components of the estimate unchanged. -/
theorem meanStep_color_eq (labImg : Mat) (y x : Int) (current : Point5D)
    (h : ∀ c ∈ qualifyingCells labImg y x current,
      (getPoint5D c.1 c.2 labImg).l = current.l ∧ (getPoint5D c.1 c.2 labImg).a = current.a ∧
        (getPoint5D c.1 c.2 labImg).b = current.b) :
    ∃ next, meanStep labImg y x current = some next ∧
      next.l = current.l ∧ next.a = current.a ∧ next.b = current.b := by
  rcases Nat.eq_zero_or_pos (accumulate labImg y x current).count with h0 | hpos
  · exact ⟨current, meanStep_eq_of_zero labImg y x current h0, rfl, rfl, rfl⟩
  · refine ⟨_, meanStep_eq_of_pos labImg y x current hpos, ?_, ?_, ?_⟩
    all_goals
      rw [accumulate_eq] at hpos ⊢
      have hne : ((qualifyingCells labImg y x current).length : ℚ) ≠ 0 := by
        exact_mod_cast Nat.pos_iff_ne_zero.mp hpos
    · rw [sum_map_eq_length_mul _ _ Point5D.l current.l
        (fun c hc => (h c hc).1)]
      field_simp
    · rw [sum_map_eq_length_mul _ _ Point5D.a current.a
        (fun c hc => (h c hc).2.1)]
      field_simp
    · rw [sum_map_eq_length_mul _ _ Point5D.b current.b
        (fun c hc => (h c hc).2.2)]
      field_simp

theorem continueTest_false_of_color_eq {next current : Point5D} (iter : Nat)
    (hl : next.l = current.l) (ha : next.a = current.a) (hb : next.b = current.b) :
    continueTest next current iter = false := by
  have h0 : ¬ (tol_color * tol_color < next.colorDistSq current) := by
    simp only [Point5D.colorDistSq, hl, ha, hb, tol_color]
    norm_num
  simp [continueTest, h0]

theorem getPoint5D_color_of_pix_eq (labImg : Mat) {i j i2 j2 : Int}
    (h : labImg.pix i j = labImg.pix i2 j2) :
    (getPoint5D i j labImg).l = (getPoint5D i2 j2 labImg).l ∧
      (getPoint5D i j labImg).a = (getPoint5D i2 j2 labImg).a ∧
      (getPoint5D i j labImg).b = (getPoint5D i2 j2 labImg).b := by
  simp [getPoint5D, h]

/-- A pixel whose scanned cells each hold its own bytes or lie farther than `hr`
in colour leaves the loop after one iteration with its own bytes. -/
theorem pixelLoop_same_or_far (labImg : Mat) (y x : Int)
    (H : ∀ c ∈ scanWindow labImg y x, labImg.pix c.1 c.2 = labImg.pix y x ∨
      hr * hr < (getPoint5D y x labImg).colorDistSq (getPoint5D c.1 c.2 labImg)) :
    ∃ st, pixelLoop labImg y x = some st ∧ st.iter = 1 ∧ st.prev = getPoint5D y x labImg ∧
      toVec3b st.current = labImg.pix y x := by
  have hq : ∀ c ∈ qualifyingCells labImg y x (getPoint5D y x labImg),
      (getPoint5D c.1 c.2 labImg).l = (getPoint5D y x labImg).l ∧
        (getPoint5D c.1 c.2 labImg).a = (getPoint5D y x labImg).a ∧
        (getPoint5D c.1 c.2 labImg).b = (getPoint5D y x labImg).b := by
    intro c hc
    unfold qualifyingCells at hc
    rw [List.mem_filter] at hc
    obtain ⟨hc1, hc2⟩ := hc
    rcases H c hc1 with hsame | hfar
    · exact getPoint5D_color_of_pix_eq labImg hsame
    · simp only [qualifies, Bool.and_eq_true, decide_eq_true_eq] at hc2
      exact absurd hc2.2 (not_le.mpr hfar)
  obtain ⟨next, hnext, hl, ha, hb⟩ := meanStep_color_eq labImg y x _ hq
  refine ⟨⟨next, getPoint5D y x labImg, 1⟩, ?_, rfl, rfl, ?_⟩
  · show doWhile labImg y x (4 + 1) (getPoint5D y x labImg) 0 = _
    rw [doWhile_succ labImg y x 4 _ next 0 hnext, continueTest_false_of_color_eq _ hl ha hb]
    simp
  · show toVec3b next = _
    rw [toVec3b_congr hl ha hb, toVec3b_getPoint5D]

theorem getPoint5D_eq_labPoint (labImg : Mat) (i j : Int) :
    getPoint5D i j labImg = labPoint i j (labImg.pix i j) := rfl

theorem colorDistSq_labPoint (i j i2 j2 i3 j3 i4 j4 : Int) (c d : Vec3b) :
    (labPoint i j c).colorDistSq (labPoint i2 j2 d) =
      (labPoint i3 j3 c).colorDistSq (labPoint i4 j4 d) := rfl

theorem colorDistSq_comm (p q : Point5D) : p.colorDistSq q = q.colorDistSq p := by
  unfold Point5D.colorDistSq
  ring

theorem Mat.set_self (m : Mat) (y x : Int) : m.set y x (m.pix y x) = m := by
  cases m with
  | mk rows cols pix =>
    simp only [Mat.set, Mat.mk.injEq, true_and]
    funext i j
    by_cases h : i = y ∧ j = x
    · rw [if_pos h, h.1, h.2]
    · rw [if_neg h]

theorem foldlM_flatMap {α β γ : Type} (f : β → γ → Option β) (g : α → List γ) :
    ∀ (l : List α) (b : β),
      (l.flatMap g).foldlM f b = l.foldlM (fun b a => (g a).foldlM f b) b := by
  intro l
  induction l with
  | nil => intro b; rfl
  | cons a as ih =>
    intro b
    rw [List.flatMap_cons, List.foldlM_append, List.foldlM_cons]
    congr 1
    funext b2
    exact ih b2

theorem applyMeanShift_eq_foldlM (labImg : Mat) :
    applyMeanShift labImg =
      (pixelOrder labImg.rows labImg.cols).foldlM processCell labImg := by
  unfold applyMeanShift pixelOrder
  rw [foldlM_flatMap]
  simp only [List.foldlM_map, processCell]

theorem mem_pixelOrder (rows cols : Nat) (i j : Int) :
    (i, j) ∈ pixelOrder rows cols ↔ 0 ≤ j ∧ j < (cols : Int) ∧ 0 ≤ i ∧ i < (rows : Int) := by
  unfold pixelOrder
  simp only [List.mem_flatMap, List.mem_map, List.mem_range, Prod.mk.injEq]
  constructor
  · rintro ⟨y, hy, x, hx, rfl, rfl⟩
    omega
  · rintro ⟨h1, h2, h3, h4⟩
    exact ⟨i.toNat, by omega, j.toNat, by omega, by omega, by omega⟩

theorem foldlM_fixed {α β : Type} (f : β → α → Option β) (b : β) :
    ∀ (l : List α), (∀ a ∈ l, f b a = some b) → l.foldlM f b = some b := by
  intro l
  induction l with
  | nil => intro _; rfl
  | cons a as ih =>
    intro h
    rw [List.foldlM_cons, h a (List.mem_cons_self _ _)]
    exact ih (fun c hc => h c (List.mem_cons_of_mem _ hc))

theorem processPixel_same_or_far (labImg : Mat) (y x : Int)
    (H : ∀ c ∈ scanWindow labImg y x, labImg.pix c.1 c.2 = labImg.pix y x ∨
      hr * hr < (getPoint5D y x labImg).colorDistSq (getPoint5D c.1 c.2 labImg)) :
    processPixel labImg y x = some labImg := by
  obtain ⟨st, hst, _, _, hv⟩ := pixelLoop_same_or_far labImg y x H
  simp only [processPixel, hst, Option.map_some', hv, Mat.set_self]

/-- A grid in which any two cells of one window hold the same bytes or colours
farther apart than `hr` is left unchanged by the pass. -/
theorem applyMeanShift_same_or_far (labImg : Mat)
    (H : ∀ y x, labImg.inBounds y x → ∀ c ∈ scanWindow labImg y x,
      labImg.pix c.1 c.2 = labImg.pix y x ∨
        hr * hr < (getPoint5D y x labImg).colorDistSq (getPoint5D c.1 c.2 labImg)) :
    applyMeanShift labImg = some labImg := by
  rw [applyMeanShift_eq_foldlM]
  apply foldlM_fixed
  rintro ⟨y, x⟩ hp
  rw [mem_pixelOrder] at hp
  exact processPixel_same_or_far labImg y x (H y x hp)

theorem doWhile_exit (labImg : Mat) (y x : Int) :
    ∀ (fuel : Nat) (current : Point5D) (iter : Nat) (st : LoopState),
      doWhile labImg y x fuel current iter = some st →
        meanStep labImg y x st.prev = some st.current ∧
          continueTest st.current st.prev st.iter = false ∧ iter < st.iter := by
  intro fuel
  induction fuel with
  | zero => intro current iter st h; simp [doWhile] at h
  | succ n ih =>
    intro current iter st h
    obtain ⟨next, hnext⟩ := meanStep_isSome labImg y x current
    rw [doWhile_succ labImg y x n current next iter hnext] at h
    by_cases hc : continueTest next current (iter + 1) = true
    · rw [if_pos hc] at h
      obtain ⟨h1, h2, h3⟩ := ih next (iter + 1) st h
      exact ⟨h1, h2, by omega⟩
    · rw [if_neg hc] at h
      simp only [Option.some.injEq] at h
      subst h
      exact ⟨hnext, by simpa using hc, Nat.lt_succ_self _⟩

theorem continueTest_false_iff (current prev : Point5D) (iter : Nat) :
    continueTest current prev iter = false ↔
      current.colorDistSq prev ≤ tol_color * tol_color ∨
        current.spatialDistSq prev ≤ tol_spatial * tol_spatial ∨ maxIter ≤ iter := by
  unfold continueTest
  rw [Bool.and_eq_false_iff, Bool.and_eq_false_iff, decide_eq_false_iff_not,
    decide_eq_false_iff_not, decide_eq_false_iff_not, not_lt, not_lt, not_lt, or_assoc]

theorem rowMajorLt_irrefl (p : Int × Int) : ¬ rowMajorLt p p := by
  unfold rowMajorLt; omega

theorem rowMajorLt_asymm {p q : Int × Int} (h : rowMajorLt p q) : ¬ rowMajorLt q p := by
  unfold rowMajorLt at *; omega

theorem pixelOrder_pairwise (rows cols : Nat) :
    (pixelOrder rows cols).Pairwise rowMajorLt := by
  unfold pixelOrder
  rw [List.pairwise_flatMap]
  constructor
  · intro y _
    rw [List.pairwise_map]
    refine (List.pairwise_lt_range cols).imp ?_
    intro a b hab
    right
    refine ⟨rfl, ?_⟩
    show (a : Int) < (b : Int)
    exact_mod_cast hab
  · refine (List.pairwise_lt_range rows).imp ?_
    intro a b hab p hp q hq
    rw [List.mem_map] at hp hq
    obtain ⟨_, _, rfl⟩ := hp
    obtain ⟨_, _, rfl⟩ := hq
    left
    show (a : Int) < (b : Int)
    exact_mod_cast hab

theorem processPixel_spec (img img2 : Mat) (y x : Int) (h : processPixel img y x = some img2) :
    ∃ st, pixelLoop img y x = some st ∧ img2 = img.set y x (toVec3b st.current) := by
  unfold processPixel at h
  rw [Option.map_eq_some'] at h
  obtain ⟨st, hst, h2⟩ := h
  exact ⟨st, hst, h2.symm⟩

theorem processPixel_isSome (img : Mat) (y x : Int) : ∃ img2, processPixel img y x = some img2 := by
  have hpos : 0 < maxIter := Nat.succ_pos 4
  obtain ⟨st, hst, _⟩ := doWhile_some img y x maxIter (getPoint5D y x img) 0 hpos (le_refl _)
  refine ⟨img.set y x (toVec3b st.current), ?_⟩
  unfold processPixel pixelLoop
  rw [hst, Option.map_some']

theorem processCell_isSome (img : Mat) (p : Int × Int) : ∃ img2, processCell img p = some img2 :=
  processPixel_isSome img p.1 p.2

theorem foldlM_isSome {α β : Type} (f : β → α → Option β) (hf : ∀ b a, ∃ b2, f b a = some b2) :
    ∀ (l : List α) (b : β), ∃ b2, l.foldlM f b = some b2 := by
  intro l
  induction l with
  | nil => intro b; exact ⟨b, rfl⟩
  | cons a as ih =>
    intro b
    obtain ⟨b1, hb1⟩ := hf b a
    obtain ⟨b2, hb2⟩ := ih b1
    refine ⟨b2, ?_⟩
    simp only [List.foldlM_cons, hb1, Option.bind_eq_bind, Option.some_bind]
    exact hb2

theorem applyMeanShift_isSome (labImg : Mat) : ∃ out, applyMeanShift labImg = some out := by
  rw [applyMeanShift_eq_foldlM]
  exact foldlM_isSome processCell processCell_isSome _ _

/-- Processing a list of pixels keeps the dimensions and every cell outside
the list. -/
theorem foldlM_processPixel_frame :
    ∀ (l : List (Int × Int)) (img out : Mat),
      l.foldlM processCell img = some out →
        out.rows = img.rows ∧ out.cols = img.cols ∧
          ∀ i j, (i, j) ∉ l → out.pix i j = img.pix i j := by
  intro l
  induction l with
  | nil =>
    intro img out h
    have : img = out := by simpa using h
    subst this
    exact ⟨rfl, rfl, fun _ _ _ => rfl⟩
  | cons p ps ih =>
    intro img out h
    obtain ⟨img2, h2⟩ := processCell_isSome img p
    simp only [List.foldlM_cons, h2, Option.bind_eq_bind, Option.some_bind] at h
    obtain ⟨st, _, hset⟩ := processPixel_spec img img2 p.1 p.2 h2
    obtain ⟨hr1, hc1, hp1⟩ := ih img2 out h
    refine ⟨by rw [hr1, hset]; rfl, by rw [hc1, hset]; rfl, ?_⟩
    intro i j hij
    rw [List.mem_cons, not_or] at hij
    rw [hp1 i j hij.2, hset]
    have hne : ¬ (i = p.1 ∧ j = p.2) := by
      rintro ⟨rfl, rfl⟩
      exact hij.1 rfl
    simp only [Mat.set, if_neg hne]

/-- The value left at a pixel is the one its loop computes on the buffer
reached after the pixels that precede it. -/
theorem foldlM_processPixel_split (pre post : List (Int × Int)) (r c : Int) (img out : Mat)
    (hpw : (pre ++ (r, c) :: post).Pairwise rowMajorLt)
    (h : (pre ++ (r, c) :: post).foldlM processCell img = some out) :
    ∃ mid st, pixelLoop mid r c = some st ∧ out.pix r c = toVec3b st.current ∧
      mid.rows = img.rows ∧ mid.cols = img.cols ∧
      ∀ i j, mid.pix i j = if (i, j) ∈ pre then out.pix i j else img.pix i j := by
  rw [List.pairwise_append] at hpw
  obtain ⟨_, hpost, hcross⟩ := hpw
  rw [List.pairwise_cons] at hpost
  obtain ⟨mid, hmid⟩ := foldlM_isSome processCell processCell_isSome pre img
  obtain ⟨mid2, hmid2⟩ := processCell_isSome mid (r, c)
  rw [List.foldlM_append, hmid] at h
  simp only [Option.bind_eq_bind, Option.some_bind, List.foldlM_cons, hmid2] at h
  obtain ⟨st, hst, hset⟩ := processPixel_spec mid mid2 r c hmid2
  obtain ⟨hr1, hc1, hp1⟩ := foldlM_processPixel_frame pre img mid hmid
  obtain ⟨_, _, hp2⟩ := foldlM_processPixel_frame post mid2 out h
  have hnotpost : (r, c) ∉ post := fun hm => rowMajorLt_irrefl _ (hpost.1 _ hm)
  refine ⟨mid, st, hst, ?_, hr1, hc1, ?_⟩
  · rw [hp2 r c hnotpost, hset]
    simp [Mat.set]
  · intro i j
    by_cases hm : (i, j) ∈ pre
    · rw [if_pos hm]
      have hlt : rowMajorLt (i, j) (r, c) := hcross _ hm _ (List.mem_cons_self _ _)
      have hnp : (i, j) ∉ post := fun hq =>
        rowMajorLt_irrefl _ (hcross _ hm _ (List.mem_cons_of_mem _ hq))
      have hne : ¬ (i = r ∧ j = c) := by
        rintro ⟨rfl, rfl⟩
        exact rowMajorLt_irrefl _ hlt
      rw [hp2 i j hnp, hset]
      simp only [Mat.set, if_neg hne]
    · rw [if_neg hm]
      exact hp1 i j hm

theorem applyMeanShift_cell (labImg out : Mat) (h : applyMeanShift labImg = some out) (r c : Int)
    (hb : labImg.inBounds r c) :
    ∃ st, pixelLoop (bufferAt labImg out r c) r c = some st ∧ out.pix r c = toVec3b st.current := by
  rw [applyMeanShift_eq_foldlM] at h
  have hmem : (r, c) ∈ pixelOrder labImg.rows labImg.cols := (mem_pixelOrder _ _ _ _).2 hb
  obtain ⟨pre, post, hsplit⟩ := List.append_of_mem hmem
  have hpw := pixelOrder_pairwise labImg.rows labImg.cols
  rw [hsplit] at h hpw
  obtain ⟨mid, st, hst, hout, hr1, hc1, hpix⟩ := foldlM_processPixel_split pre post r c labImg out hpw h
  have hmidEq : mid = bufferAt labImg out r c := by
    cases mid with
    | mk mrows mcols mpix =>
      simp only [bufferAt, Mat.mk.injEq]
      refine ⟨hr1, hc1, ?_⟩
      funext i j
      have hij := hpix i j
      simp only at hij
      rw [hij]
      have hiff : (i, j) ∈ pre ↔ labImg.inBounds i j ∧ (i < r ∨ (i = r ∧ j < c)) := by
        rw [List.pairwise_append] at hpw
        obtain ⟨_, hpost, hcross⟩ := hpw
        rw [List.pairwise_cons] at hpost
        constructor
        · intro hm
          have h1 : (i, j) ∈ pixelOrder labImg.rows labImg.cols := by
            rw [hsplit]; exact List.mem_append_left _ hm
          exact ⟨(mem_pixelOrder _ _ _ _).1 h1, hcross _ hm _ (List.mem_cons_self _ _)⟩
        · rintro ⟨hin, hlt⟩
          have h1 : (i, j) ∈ pixelOrder labImg.rows labImg.cols := (mem_pixelOrder _ _ _ _).2 hin
          rw [hsplit, List.mem_append, List.mem_cons] at h1
          rcases h1 with h1 | h1 | h1
          · exact h1
          · rw [Prod.mk.injEq] at h1
            omega
          · exact absurd hlt (rowMajorLt_asymm (hpost.1 _ h1))
      by_cases hm : (i, j) ∈ pre
      · rw [if_pos hm, if_pos (hiff.1 hm)]
      · rw [if_neg hm, if_neg (fun hh => hm (hiff.2 hh))]
  rw [← hmidEq]
  exact ⟨st, hst, hout⟩

theorem offsets_pairwise : offsets.Pairwise (· < ·) := by
  unfold offsets
  rw [List.pairwise_map]
  refine (List.pairwise_lt_range _).imp ?_
  intro a b hab
  show (a : Int) - (hs : Int) < (b : Int) - (hs : Int)
  omega

theorem scanWindow_pairwise (labImg : Mat) (y x : Int) :
    (scanWindow labImg y x).Pairwise rowMajorLt := by
  unfold scanWindow
  rw [List.pairwise_flatMap]
  constructor
  · intro j _
    refine List.Pairwise.filterMap _ ?_ offsets_pairwise
    intro i1 i2 h12 p hp q hq
    simp only [Option.mem_def] at hp hq
    split at hp
    · split at hq
      · simp only [Option.some.injEq] at hp hq
        subst hp hq
        right
        exact ⟨rfl, by show x + i1 < x + i2; omega⟩
      · exact absurd hq (by simp)
    · exact absurd hp (by simp)
  · refine offsets_pairwise.imp ?_
    intro j1 j2 h12 p hp q hq
    rw [List.mem_filterMap] at hp hq
    obtain ⟨i1, _, hp⟩ := hp
    obtain ⟨i2, _, hq⟩ := hq
    simp only at hp hq
    split at hp
    · split at hq
      · simp only [Option.some.injEq] at hp hq
        subst hp hq
        left
        show y + j1 < y + j2
        omega
      · exact absurd hq (by simp)
    · exact absurd hp (by simp)

theorem scanWindow_nodup (labImg : Mat) (y x : Int) : (scanWindow labImg y x).Nodup := by
  refine (scanWindow_pairwise labImg y x).imp ?_
  intro p q hpq heq
  subst heq
  exact rowMajorLt_irrefl _ hpq

theorem doWhile_fuel_add (labImg : Mat) (y x : Int) :
    ∀ (fuel : Nat) (current : Point5D) (iter : Nat) (st : LoopState),
      doWhile labImg y x fuel current iter = some st →
        ∀ k, doWhile labImg y x (fuel + k) current iter = some st := by
  intro fuel
  induction fuel with
  | zero => intro current iter st h; simp [doWhile] at h
  | succ n ih =>
    intro current iter st h k
    obtain ⟨next, hnext⟩ := meanStep_isSome labImg y x current
    rw [doWhile_succ labImg y x n current next iter hnext] at h
    rw [show n + 1 + k = (n + k) + 1 by omega, doWhile_succ labImg y x (n + k) current next iter hnext]
    by_cases hc : continueTest next current (iter + 1) = true
    · rw [if_pos hc] at h ⊢
      exact ih next (iter + 1) st h k
    · rw [if_neg hc] at h ⊢
      exact h

/-! ## The squared comparisons are the source's comparisons of distances -/

theorem sqrt_le_iff_le_sq (s t : ℚ) (ht : 0 ≤ t) :
    Real.sqrt (s : ℝ) ≤ (t : ℝ) ↔ s ≤ t * t := by
  have ht2 : (0 : ℝ) ≤ (t : ℝ) := by exact_mod_cast ht
  rw [Real.sqrt_le_left ht2, ← sq]
  exact_mod_cast Iff.rfl

theorem lt_sqrt_iff_sq_lt (s t : ℚ) (ht : 0 ≤ t) :
    (t : ℝ) < Real.sqrt (s : ℝ) ↔ t * t < s := by
  have ht2 : (0 : ℝ) ≤ (t : ℝ) := by exact_mod_cast ht
  rw [Real.lt_sqrt ht2, sq]
  exact_mod_cast Iff.rfl

/-- The test of lines 82-83 on the real-valued distances. -/
theorem qualifies_iff_sqrt (current neighbor : Point5D) :
    qualifies current neighbor = true ↔
      Real.sqrt ((current.spatialDistSq neighbor : ℚ) : ℝ) ≤ ((hs : ℚ) : ℝ) ∧
        Real.sqrt ((current.colorDistSq neighbor : ℚ) : ℝ) ≤ ((hr : ℚ) : ℝ) := by
  rw [sqrt_le_iff_le_sq _ _ (by norm_num [hs]), sqrt_le_iff_le_sq _ _ (by norm_num [hr])]
  simp [qualifies]

/-- The loop condition of lines 96-98 on the real-valued distances. -/
theorem continueTest_iff_sqrt (current prev : Point5D) (iter : Nat) :
    continueTest current prev iter = true ↔
      ((tol_color : ℚ) : ℝ) < Real.sqrt ((current.colorDistSq prev : ℚ) : ℝ) ∧
        ((tol_spatial : ℚ) : ℝ) < Real.sqrt ((current.spatialDistSq prev : ℚ) : ℝ) ∧
        iter < maxIter := by
  rw [lt_sqrt_iff_sq_lt _ _ (by norm_num [tol_color]),
    lt_sqrt_iff_sq_lt _ _ (by norm_num [tol_spatial])]
  simp [continueTest, and_assoc]

/-! ## Ranges, integer sums and window dependence -/

theorem integerValued_intCast (n : Int) : integerValued (n : ℚ) := by
  simp [integerValued]

theorem sum_map_x_getPoint5D (labImg : Mat) (cells : List (Int × Int)) :
    ((cells.map fun c => getPoint5D c.1 c.2 labImg).map Point5D.x).sum =
      (((cells.map Prod.snd).sum : Int) : ℚ) := by
  induction cells with
  | nil => simp
  | cons c cs ih =>
    simp only [List.map_cons, List.sum_cons, ih]
    simp [getPoint5D]

theorem sum_map_y_getPoint5D (labImg : Mat) (cells : List (Int × Int)) :
    ((cells.map fun c => getPoint5D c.1 c.2 labImg).map Point5D.y).sum =
      (((cells.map Prod.fst).sum : Int) : ℚ) := by
  induction cells with
  | nil => simp
  | cons c cs ih =>
    simp only [List.map_cons, List.sum_cons, ih]
    simp [getPoint5D]

theorem pixelOrder_nodup (rows cols : Nat) : (pixelOrder rows cols).Nodup := by
  refine (pixelOrder_pairwise rows cols).imp ?_
  intro p q hpq heq
  subst heq
  exact rowMajorLt_irrefl _ hpq

theorem truncToInt_eq_floor (q : ℚ) (h : 0 ≤ q) : truncToInt q = ⌊q⌋ := by
  unfold truncToInt
  rw [Rat.floor_def, Int.tdiv_eq_ediv (Rat.num_nonneg.mpr h) (Int.ofNat_nonneg _)]

theorem truncToInt_bounds (q : ℚ) (m M : Nat) (h1 : (m : ℚ) ≤ q) (h2 : q ≤ (M : ℚ)) :
    (m : Int) ≤ truncToInt q ∧ truncToInt q ≤ (M : Int) := by
  have h0 : (0 : ℚ) ≤ q := le_trans (Nat.cast_nonneg m) h1
  rw [truncToInt_eq_floor q h0]
  constructor
  · rw [Int.le_floor]
    exact_mod_cast h1
  · have h3 : ((⌊q⌋ : Int) : ℚ) ≤ (M : ℚ) := le_trans (Int.floor_le q) h2
    exact_mod_cast h3

theorem saturate_cast_of_range (v : Int) (h0 : 0 ≤ v) (h1 : v ≤ 255) :
    (((saturate_cast v).val : Nat) : Int) = v := by
  unfold saturate_cast
  rw [dif_neg (by omega), dif_neg (by omega)]
  simp only
  omega

theorem sum_map_bounds {α : Type} (cells : List α) (g : α → Point5D) (f : Point5D → ℚ)
    (lo hi : ℚ) (h : ∀ c ∈ cells, lo ≤ f (g c) ∧ f (g c) ≤ hi) :
    (cells.length : ℚ) * lo ≤ ((cells.map g).map f).sum ∧
      ((cells.map g).map f).sum ≤ (cells.length : ℚ) * hi := by
  induction cells with
  | nil => simp
  | cons c cs ih =>
    obtain ⟨h1, h2⟩ := h c (List.mem_cons_self _ _)
    obtain ⟨i1, i2⟩ := ih (fun d hd => h d (List.mem_cons_of_mem _ hd))
    simp only [List.map_cons, List.sum_cons, List.length_cons]
    push_cast
    constructor <;> linarith

theorem div_bounds (s lo hi : ℚ) (n : Nat) (hn : 0 < n) (h1 : (n : ℚ) * lo ≤ s)
    (h2 : s ≤ (n : ℚ) * hi) : lo ≤ s / (n : ℚ) ∧ s / (n : ℚ) ≤ hi := by
  have hpos : (0 : ℚ) < (n : ℚ) := by exact_mod_cast hn
  constructor
  · rw [le_div_iff₀ hpos]
    linarith
  · rw [div_le_iff₀ hpos]
    linarith

theorem inColorBox_getPoint5D (labImg : Mat) (lo hi : Vec3b) (i j : Int)
    (h : bytesBetween lo hi (labImg.pix i j)) : inColorBox lo hi (getPoint5D i j labImg) := by
  obtain ⟨⟨h1, h2⟩, ⟨h3, h4⟩, ⟨h5, h6⟩⟩ := h
  rw [Fin.le_def] at h1 h2 h3 h4 h5 h6
  have q1 : ((lo.c0.val : Nat) : ℚ) ≤ ((labImg.pix i j).c0.val : ℚ) := by exact_mod_cast h1
  have q2 : (((labImg.pix i j).c0.val : Nat) : ℚ) ≤ (hi.c0.val : ℚ) := by exact_mod_cast h2
  have q3 : ((lo.c1.val : Nat) : ℚ) ≤ ((labImg.pix i j).c1.val : ℚ) := by exact_mod_cast h3
  have q4 : (((labImg.pix i j).c1.val : Nat) : ℚ) ≤ (hi.c1.val : ℚ) := by exact_mod_cast h4
  have q5 : ((lo.c2.val : Nat) : ℚ) ≤ ((labImg.pix i j).c2.val : ℚ) := by exact_mod_cast h5
  have q6 : (((labImg.pix i j).c2.val : Nat) : ℚ) ≤ (hi.c2.val : ℚ) := by exact_mod_cast h6
  simp only [inColorBox, labPoint, getPoint5D]
  refine ⟨⟨?_, ?_⟩, ⟨?_, ?_⟩, ⟨?_, ?_⟩⟩ <;> linarith

theorem meanStep_inColorBox (labImg : Mat) (y x : Int) (lo hi : Vec3b)
    (hcells : ∀ c ∈ scanWindow labImg y x, inColorBox lo hi (getPoint5D c.1 c.2 labImg))
    (current next : Point5D) (hcur : inColorBox lo hi current)
    (hnext : meanStep labImg y x current = some next) : inColorBox lo hi next := by
  rcases Nat.eq_zero_or_pos (accumulate labImg y x current).count with h0 | hpos
  · rw [meanStep_eq_of_zero labImg y x current h0] at hnext
    simp only [Option.some.injEq] at hnext
    rw [← hnext]
    exact hcur
  · rw [meanStep_eq_of_pos labImg y x current hpos] at hnext
    simp only [Option.some.injEq] at hnext
    rw [← hnext]
    rw [accumulate_eq] at hpos ⊢
    have hq : ∀ c ∈ qualifyingCells labImg y x current,
        inColorBox lo hi (getPoint5D c.1 c.2 labImg) := by
      intro c hc
      unfold qualifyingCells at hc
      exact hcells c (List.mem_of_mem_filter hc)
    obtain ⟨l1, l2⟩ := sum_map_bounds (qualifyingCells labImg y x current)
      (fun c => getPoint5D c.1 c.2 labImg) Point5D.l _ _ (fun c hc => (hq c hc).1)
    obtain ⟨a1, a2⟩ := sum_map_bounds (qualifyingCells labImg y x current)
      (fun c => getPoint5D c.1 c.2 labImg) Point5D.a _ _ (fun c hc => (hq c hc).2.1)
    obtain ⟨b1, b2⟩ := sum_map_bounds (qualifyingCells labImg y x current)
      (fun c => getPoint5D c.1 c.2 labImg) Point5D.b _ _ (fun c hc => (hq c hc).2.2)
    exact ⟨div_bounds _ _ _ _ hpos l1 l2, div_bounds _ _ _ _ hpos a1 a2,
      div_bounds _ _ _ _ hpos b1 b2⟩

theorem doWhile_inColorBox (labImg : Mat) (y x : Int) (lo hi : Vec3b)
    (hcells : ∀ c ∈ scanWindow labImg y x, inColorBox lo hi (getPoint5D c.1 c.2 labImg)) :
    ∀ (fuel : Nat) (current : Point5D) (iter : Nat) (st : LoopState),
      inColorBox lo hi current → doWhile labImg y x fuel current iter = some st →
        inColorBox lo hi st.current := by
  intro fuel
  induction fuel with
  | zero => intro current iter st _ h; simp [doWhile] at h
  | succ n ih =>
    intro current iter st hcur h
    obtain ⟨next, hnext⟩ := meanStep_isSome labImg y x current
    have hbox := meanStep_inColorBox labImg y x lo hi hcells current next hcur hnext
    rw [doWhile_succ labImg y x n current next iter hnext] at h
    by_cases hc : continueTest next current (iter + 1) = true
    · rw [if_pos hc] at h
      exact ih next (iter + 1) st hbox h
    · rw [if_neg hc] at h
      simp only [Option.some.injEq] at h
      rw [← h]
      exact hbox

/-- The integers handed to `saturate_cast` for a point of the colour box lie
between the bounding bytes, and so do the bytes written. -/
theorem toVec3b_of_inColorBox (lo hi : Vec3b) (p : Point5D) (h : inColorBox lo hi p) :
    ((lo.c0.val : Int) ≤ truncToInt (p.l * 255 / 100) ∧
        truncToInt (p.l * 255 / 100) ≤ (hi.c0.val : Int)) ∧
      ((lo.c1.val : Int) ≤ truncToInt (p.a + 128) ∧
        truncToInt (p.a + 128) ≤ (hi.c1.val : Int)) ∧
      ((lo.c2.val : Int) ≤ truncToInt (p.b + 128) ∧
        truncToInt (p.b + 128) ≤ (hi.c2.val : Int)) ∧
      bytesBetween lo hi (toVec3b p) := by
  obtain ⟨⟨l1, l2⟩, ⟨a1, a2⟩, ⟨b1, b2⟩⟩ := h
  simp only [labPoint] at l1 l2 a1 a2 b1 b2
  have tl := truncToInt_bounds (p.l * 255 / 100) lo.c0.val hi.c0.val (by linarith) (by linarith)
  have ta := truncToInt_bounds (p.a + 128) lo.c1.val hi.c1.val (by linarith) (by linarith)
  have tb := truncToInt_bounds (p.b + 128) lo.c2.val hi.c2.val (by linarith) (by linarith)
  refine ⟨tl, ta, tb, ?_⟩
  have hl0 := lo.c0.isLt
  have hl1 := lo.c1.isLt
  have hl2 := lo.c2.isLt
  have hh0 := hi.c0.isLt
  have hh1 := hi.c1.isLt
  have hh2 := hi.c2.isLt
  have sl := saturate_cast_of_range (truncToInt (p.l * 255 / 100)) (by omega) (by omega)
  have sa := saturate_cast_of_range (truncToInt (p.a + 128)) (by omega) (by omega)
  have sb := saturate_cast_of_range (truncToInt (p.b + 128)) (by omega) (by omega)
  simp only [bytesBetween, toVec3b, Fin.le_def]
  refine ⟨⟨?_, ?_⟩, ⟨?_, ?_⟩, ⟨?_, ?_⟩⟩ <;> omega

theorem foldl_congr_mem {α β : Type} (f g : β → α → β) :
    ∀ (l : List α) (b : β), (∀ a ∈ l, ∀ b, f b a = g b a) → l.foldl f b = l.foldl g b := by
  intro l
  induction l with
  | nil => intro b _; rfl
  | cons a as ih =>
    intro b h
    rw [List.foldl_cons, List.foldl_cons, h a (List.mem_cons_self _ _)]
    exact ih _ (fun c hc => h c (List.mem_cons_of_mem _ hc))

theorem scanWindow_congr (g1 g2 : Mat) (y x : Int) (hrows : g1.rows = g2.rows)
    (hcols : g1.cols = g2.cols) : scanWindow g1 y x = scanWindow g2 y x := by
  unfold scanWindow
  rw [hrows, hcols]

theorem meanStep_congr (g1 g2 : Mat) (y x : Int) (hrows : g1.rows = g2.rows)
    (hcols : g1.cols = g2.cols)
    (h : ∀ c ∈ scanWindow g1 y x, g1.pix c.1 c.2 = g2.pix c.1 c.2) (current : Point5D) :
    meanStep g1 y x current = meanStep g2 y x current := by
  have hacc : accumulate g1 y x current = accumulate g2 y x current := by
    unfold accumulate
    rw [← scanWindow_congr g1 g2 y x hrows hcols]
    apply foldl_congr_mem
    intro c hc acc
    simp only [visit, getPoint5D, h c hc]
  unfold meanStep
  rw [hacc]

theorem doWhile_congr (g1 g2 : Mat) (y x : Int)
    (h : ∀ current, meanStep g1 y x current = meanStep g2 y x current) :
    ∀ (fuel : Nat) (current : Point5D) (iter : Nat),
      doWhile g1 y x fuel current iter = doWhile g2 y x fuel current iter := by
  intro fuel
  induction fuel with
  | zero => intro current iter; rfl
  | succ n ih =>
    intro current iter
    obtain ⟨next, hnext⟩ := meanStep_isSome g1 y x current
    have hnext2 : meanStep g2 y x current = some next := by rw [← h current]; exact hnext
    rw [doWhile_succ g1 y x n current next iter hnext,
      doWhile_succ g2 y x n current next iter hnext2, ih next (iter + 1)]

/-! ## Exact-arithmetic statements that the rounding of the code breaks -/

/-- Exact arithmetic: the accumulators are the component-wise sum and the number
of the qualifying cells, and the step returns their arithmetic mean. -/
theorem accumulate_exact_mean (labImg : Mat) (y x : Int) (current : Point5D) :
    (∀ ny nx, (ny, nx) ∈ qualifyingCells labImg y x current ↔
        (ny, nx) ∈ scanWindow labImg y x ∧
          current.spatialDistSq (getPoint5D ny nx labImg) ≤ (hs : ℚ) * (hs : ℚ) ∧
          current.colorDistSq (getPoint5D ny nx labImg) ≤ hr * hr) ∧
      (qualifyingCells labImg y x current).Nodup ∧
      accumulate labImg y x current =
        ⟨sumOf ((qualifyingCells labImg y x current).map fun c => getPoint5D c.1 c.2 labImg),
          (qualifyingCells labImg y x current).length⟩ ∧
      meanStep labImg y x current =
        if (qualifyingCells labImg y x current).length = 0 then some current
        else some (meanOf ((qualifyingCells labImg y x current).map
          fun c => getPoint5D c.1 c.2 labImg)) := by
  refine ⟨?_, ?_, ?_, ?_⟩
  · intro ny nx
    unfold qualifyingCells
    rw [List.mem_filter]
    simp only [qualifies, Bool.and_eq_true, decide_eq_true_eq]
  · exact (scanWindow_nodup labImg y x).filter _
  · rw [accumulate_eq]
    rfl
  · by_cases hz : (qualifyingCells labImg y x current).length = 0
    · rw [if_pos hz]
      apply meanStep_eq_of_zero
      rw [accumulate_eq]
      exact hz
    · rw [if_neg hz]
      have hpos : 0 < (accumulate labImg y x current).count := by
        rw [accumulate_eq]
        exact Nat.pos_of_ne_zero hz
      rw [meanStep_eq_of_pos labImg y x current hpos, accumulate_eq]
      simp only [meanOf, List.length_map]

/-- Exact arithmetic: a grid whose in-bounds cells all hold the same three bytes
is returned unchanged by the exact pass. -/
theorem uniform_grid_unchanged_exact (labImg : Mat) (color : Vec3b)
    (h : ∀ i j, labImg.inBounds i j → labImg.pix i j = color) :
    applyMeanShift labImg = some labImg := by
  apply applyMeanShift_same_or_far
  intro y x hb c hc
  left
  have hcb : labImg.inBounds c.1 c.2 := ((mem_scanWindow labImg y x c.1 c.2).1 hc).1
  rw [h _ _ hcb, h _ _ hb]

/-- Exact arithmetic: a grid made of two column regions whose colours lie farther
apart than `hr` is returned unchanged by the exact pass. -/
theorem two_region_grid_unchanged_exact (labImg : Mat) (mid : Int) (A B : Vec3b)
    (hA : ∀ i j, labImg.inBounds i j → j < mid → labImg.pix i j = A)
    (hB : ∀ i j, labImg.inBounds i j → mid ≤ j → labImg.pix i j = B)
    (hfar : hr * hr < (labPoint 0 0 A).colorDistSq (labPoint 0 0 B)) :
    applyMeanShift labImg = some labImg := by
  apply applyMeanShift_same_or_far
  intro y x hb c hc
  have hcb : labImg.inBounds c.1 c.2 := ((mem_scanWindow labImg y x c.1 c.2).1 hc).1
  rw [getPoint5D_eq_labPoint, getPoint5D_eq_labPoint]
  by_cases hx : x < mid
  · by_cases hc2 : c.2 < mid
    · left
      rw [hA _ _ hcb hc2, hA _ _ hb hx]
    · right
      rw [hA _ _ hb hx, hB _ _ hcb (not_lt.mp hc2), colorDistSq_labPoint y x c.1 c.2 0 0 0 0]
      exact hfar
  · by_cases hc2 : c.2 < mid
    · right
      rw [hB _ _ hb (not_lt.mp hx), hA _ _ hcb hc2, colorDistSq_comm,
        colorDistSq_labPoint c.1 c.2 y x 0 0 0 0]
      exact hfar
    · left
      rw [hB _ _ hcb (not_lt.mp hc2), hB _ _ hb (not_lt.mp hx)]

/-- Exact arithmetic: a pixel whose in-bounds window cells all hold its own bytes
runs 1 iteration of the exact loop, which writes its own bytes back. -/
theorem flat_window_one_iteration_exact (labImg : Mat) (y x : Int) (_hb : labImg.inBounds y x)
    (h : ∀ ny nx, labImg.inBounds ny nx → |nx - x| ≤ (hs : Int) → |ny - y| ≤ (hs : Int) →
      labImg.pix ny nx = labImg.pix y x) :
    ∃ st, pixelLoop labImg y x = some st ∧ st.iter = 1 ∧
      toVec3b st.current = labImg.pix y x ∧ processPixel labImg y x = some labImg := by
  have H : ∀ c ∈ scanWindow labImg y x, labImg.pix c.1 c.2 = labImg.pix y x ∨
      hr * hr < (getPoint5D y x labImg).colorDistSq (getPoint5D c.1 c.2 labImg) := by
    rintro ⟨ny, nx⟩ hc
    obtain ⟨hcb, hx, hy⟩ := (mem_scanWindow labImg y x ny nx).1 hc
    exact Or.inl (h ny nx hcb hx hy)
  obtain ⟨st, hst, hiter, _, hv⟩ := pixelLoop_same_or_far labImg y x H
  exact ⟨st, hst, hiter, hv, processPixel_same_or_far labImg y x H⟩

/-- Exact arithmetic: the bytes the exact loop writes back lie between any
channel-wise bounds `lo`, `hi` of the in-bounds cells of the pixel's window. -/
theorem writeback_within_window_range_exact (labImg : Mat) (y x : Int) (hb : labImg.inBounds y x)
    (lo hi : Vec3b)
    (h : ∀ ny nx, labImg.inBounds ny nx → |nx - x| ≤ (hs : Int) → |ny - y| ≤ (hs : Int) →
      bytesBetween lo hi (labImg.pix ny nx)) :
    ∃ st, pixelLoop labImg y x = some st ∧
      processPixel labImg y x = some (labImg.set y x (toVec3b st.current)) ∧
      bytesBetween lo hi (toVec3b st.current) ∧
      (0 ≤ truncToInt (st.current.l * 255 / 100) ∧ truncToInt (st.current.l * 255 / 100) ≤ 255) ∧
      (0 ≤ truncToInt (st.current.a + 128) ∧ truncToInt (st.current.a + 128) ≤ 255) ∧
      (0 ≤ truncToInt (st.current.b + 128) ∧ truncToInt (st.current.b + 128) ≤ 255) ∧
      (((toVec3b st.current).c0.val : Nat) : Int) = truncToInt (st.current.l * 255 / 100) ∧
      (((toVec3b st.current).c1.val : Nat) : Int) = truncToInt (st.current.a + 128) ∧
      (((toVec3b st.current).c2.val : Nat) : Int) = truncToInt (st.current.b + 128) := by
  have hcells : ∀ c ∈ scanWindow labImg y x, inColorBox lo hi (getPoint5D c.1 c.2 labImg) := by
    rintro ⟨ny, nx⟩ hc
    obtain ⟨hcb, hx, hy⟩ := (mem_scanWindow labImg y x ny nx).1 hc
    exact inColorBox_getPoint5D labImg lo hi ny nx (h ny nx hcb hx hy)
  have hinit : inColorBox lo hi (getPoint5D y x labImg) :=
    hcells (y, x) (self_mem_scanWindow labImg y x hb)
  have hpos : 0 < maxIter := Nat.succ_pos 4
  obtain ⟨st, hst, _, _⟩ :=
    doWhile_some labImg y x maxIter (getPoint5D y x labImg) 0 hpos (le_refl _)
  have hbox := doWhile_inColorBox labImg y x lo hi hcells maxIter _ 0 st hinit hst
  obtain ⟨⟨l1, l2⟩, ⟨a1, a2⟩, ⟨b1, b2⟩, hbytes⟩ := toVec3b_of_inColorBox lo hi st.current hbox
  have hl0 := hi.c0.isLt
  have hl1 := hi.c1.isLt
  have hl2 := hi.c2.isLt
  have rl : 0 ≤ truncToInt (st.current.l * 255 / 100) ∧
      truncToInt (st.current.l * 255 / 100) ≤ 255 := by constructor <;> omega
  have ra : 0 ≤ truncToInt (st.current.a + 128) ∧ truncToInt (st.current.a + 128) ≤ 255 := by
    constructor <;> omega
  have rb : 0 ≤ truncToInt (st.current.b + 128) ∧ truncToInt (st.current.b + 128) ≤ 255 := by
    constructor <;> omega
  refine ⟨st, hst, ?_, hbytes, rl, ra, rb, saturate_cast_of_range _ rl.1 rl.2,
    saturate_cast_of_range _ ra.1 ra.2, saturate_cast_of_range _ rb.1 rb.2⟩
  unfold processPixel
  rw [show pixelLoop labImg y x = some st from hst, Option.map_some']

/-! ## Lemmas on the binary32 embedding -/

/-- The constant `0.3f` is the binary32 value `5033165 / 2 ^ 24`, slightly above
`3 / 10`. -/
theorem F32.tol_color_value :
    F32.tol_color = 5033165 / 16777216 ∧ (3 : ℚ) / 10 < F32.tol_color := by
  decide!

/-- Sample values of the binary32 operations: the square root of 2, a sum that
is rounded to even at a tie, and the conversion of byte 3 by line 52. -/
theorem F32.sample_values :
    F32.sqrt 2 = 11863283 / 8388608 ∧ F32.fadd 16777216 1 = 16777216 ∧
      F32.fadd 16777218 1 = 16777220 ∧
      F32.fdiv (F32.fmul (F32.ofInt 3) 100) 255 = 9868951 / 8388608 := by
  decide!

theorem F32.pow2_pos (e : Int) : 0 < F32.pow2 e := by
  unfold F32.pow2
  split <;> positivity

theorem F32.pow2_eq_zpow (e : Int) : F32.pow2 e = (2 : ℚ) ^ e := by
  unfold F32.pow2
  split
  · rename_i h
    have h2 : ((e.toNat : Nat) : Int) = e := Int.toNat_of_nonneg h
    rw [Nat.cast_pow, Nat.cast_ofNat, ← zpow_natCast, h2]
  · rename_i h
    have h2 : (((-e).toNat : Nat) : Int) = -e := Int.toNat_of_nonneg (by omega)
    rw [Nat.cast_pow, Nat.cast_ofNat, ← zpow_natCast, h2, zpow_neg, one_div, inv_inv]

theorem F32.pow2_mono {e1 e2 : Int} (h : e1 ≤ e2) : F32.pow2 e1 ≤ F32.pow2 e2 := by
  rw [F32.pow2_eq_zpow, F32.pow2_eq_zpow]
  exact zpow_le_zpow_right₀ (by norm_num) h

theorem F32.floor_le_roundEven (q : ℚ) : ⌊q⌋ ≤ F32.roundEven q := by
  unfold F32.roundEven
  simp only
  split
  · exact le_refl _
  · split
    · omega
    · split <;> omega

theorem F32.pow_log2Go_le :
    ∀ (fuel n : Nat), 1 ≤ n → 2 ^ F32.log2Go fuel n ≤ n := by
  intro fuel
  induction fuel with
  | zero => intro n hn; simpa [F32.log2Go] using hn
  | succ f ih =>
    intro n hn
    unfold F32.log2Go
    by_cases h2 : 2 ≤ n
    · rw [if_pos h2, Nat.pow_succ]
      have hhalf : 1 ≤ n / 2 := by omega
      have := ih (n / 2) hhalf
      omega
    · rw [if_neg h2]
      simpa using hn

theorem F32.floorLog2_natCast (n : Nat) (hn : 1 ≤ n) :
    F32.floorLog2 (n : ℚ) = (F32.log2 n : Int) ∧ F32.pow2 (F32.log2 n : Int) ≤ (n : ℚ) := by
  have hle : 2 ^ F32.log2 n ≤ n := F32.pow_log2Go_le n n hn
  have hp : F32.pow2 (F32.log2 n : Int) ≤ (n : ℚ) := by
    unfold F32.pow2
    rw [if_pos (Int.ofNat_nonneg _), Int.toNat_ofNat]
    exact_mod_cast hle
  refine ⟨?_, hp⟩
  unfold F32.floorLog2
  have h1 : ((n : ℚ)).num.natAbs = n := by simp
  have h2 : ((n : ℚ)).den = 1 := by simp
  have h3 : F32.log2 1 = 0 := by decide
  simp only [h1, h2, h3, Nat.cast_zero, sub_zero]
  rw [if_pos hp]

/-- The conversion of a positive count to `float` is positive, so line 92 never
divides by zero. -/
theorem F32.ofInt_natCast_pos (n : Nat) (hn : 1 ≤ n) : 0 < F32.ofInt (n : Int) := by
  have hq : (0 : ℚ) < (n : ℚ) := by exact_mod_cast hn
  have hq1 : (1 : ℚ) ≤ (n : ℚ) := by exact_mod_cast hn
  obtain ⟨hfl, hp⟩ := F32.floorLog2_natCast n hn
  unfold F32.ofInt F32.round
  rw [Int.cast_natCast, if_neg (ne_of_gt hq), abs_of_pos hq, hfl]
  simp only
  have hmax : max (F32.log2 n : Int) (-126) = (F32.log2 n : Int) := by omega
  rw [hmax]
  have hulp := F32.pow2_pos ((F32.log2 n : Int) - 23)
  have hle : F32.pow2 ((F32.log2 n : Int) - 23) ≤ (n : ℚ) :=
    le_trans (F32.pow2_mono (by omega)) hp
  have hone : (1 : ℚ) ≤ (n : ℚ) / F32.pow2 ((F32.log2 n : Int) - 23) := by
    rw [le_div_iff₀ hulp]
    linarith
  have hfloor : (1 : Int) ≤ ⌊(n : ℚ) / F32.pow2 ((F32.log2 n : Int) - 23)⌋ := by
    rw [Int.le_floor]
    exact_mod_cast hone
  have hre := F32.floor_le_roundEven ((n : ℚ) / F32.pow2 ((F32.log2 n : Int) - 23))
  have hpos : (0 : ℚ) < (F32.roundEven ((n : ℚ) / F32.pow2 ((F32.log2 n : Int) - 23)) : ℚ) := by
    exact_mod_cast (by omega : (0 : Int) < F32.roundEven ((n : ℚ) / F32.pow2 ((F32.log2 n : Int) - 23)))
  exact mul_pos hpos hulp

theorem F32.foldl_visit_seq (labImg : Mat) (current : Point5D) :
    ∀ (cells : List (Int × Int)) (acc : Accum),
      cells.foldl (F32.visit labImg current) acc =
        ⟨((cells.filter fun c => F32.qualifies current (F32.getPoint5D c.1 c.2 labImg)).map
            fun c => F32.getPoint5D c.1 c.2 labImg).foldl F32.add acc.sum,
          acc.count +
            (cells.filter fun c => F32.qualifies current (F32.getPoint5D c.1 c.2 labImg)).length⟩ := by
  intro cells
  induction cells with
  | nil => intro acc; simp
  | cons c cs ih =>
    intro acc
    rw [List.foldl_cons, ih]
    by_cases hq : F32.qualifies current (F32.getPoint5D c.1 c.2 labImg) = true
    · simp [F32.visit, hq, List.filter_cons, Nat.add_assoc]
      omega
    · simp [F32.visit, hq, List.filter_cons]

theorem F32.accumulate_eq_seq (labImg : Mat) (y x : Int) (current : Point5D) :
    F32.accumulate labImg y x current =
      ⟨F32.sumSeq ((F32.qualifyingCells labImg y x current).map
          fun c => F32.getPoint5D c.1 c.2 labImg),
        (F32.qualifyingCells labImg y x current).length⟩ := by
  unfold F32.accumulate
  rw [F32.foldl_visit_seq]
  simp [F32.qualifyingCells, F32.sumSeq]

/-! ## Claims -/

/-- Claim C1, refuted as stated: on `gridPair` the pass leaves `(18, 128, 128)` at
cell `(0, 1)`, while the convergence loop of that pixel run against the
unmodified input yields `(12, 128, 128)`. -/
theorem applyMeanShift_sees_written_cells :
    (applyMeanShift gridPair).map (fun out => out.pix 0 1) = some ⟨18, 128, 128⟩ ∧
      (pixelLoop gridPair 0 1).map (fun st => toVec3b st.current) = some ⟨12, 128, 128⟩ := by
  decide!

/-- Claim C1, amended: for every grid and every in-bounds cell `(r, c)` the pass
returns, and the value it leaves at `(r, c)` is the one obtained by running the
convergence loop of `(r, c)` against the buffer as it stands when that pixel is
processed, in which the cells preceding `(r, c)` in row-major order already
hold their final values and all other cells hold the input values. -/
theorem applyMeanShift_cell_on_current_buffer (labImg : Mat) (r c : Int)
    (hb : labImg.inBounds r c) :
    ∃ out, applyMeanShift labImg = some out ∧
      ∃ st, pixelLoop (bufferAt labImg out r c) r c = some st ∧
        out.pix r c = toVec3b st.current := by
  obtain ⟨out, hout⟩ := applyMeanShift_isSome labImg
  exact ⟨out, hout, applyMeanShift_cell labImg out hout r c hb⟩

/-- Instance of the amended claim C1 at cell `(0, 1)` of `gridPair`. -/
theorem applyMeanShift_cell_on_current_buffer_witness :
    gridPair.inBounds 0 1 ∧
      ∃ out, applyMeanShift gridPair = some out ∧
        ∃ st, pixelLoop (bufferAt gridPair out 0 1) 0 1 = some st ∧
          out.pix 0 1 = toVec3b st.current :=
  ⟨by decide, applyMeanShift_cell_on_current_buffer gridPair 0 1 (by decide)⟩

/-- Claim C2, refuted as stated: for pixel `(0, 0)` of `gridRow13` the first
iteration moves the estimate to `x = 4` and the loop goes on, yet cell `(0, 12)`,
which lies in the window centred on the rounded estimate, is not scanned. -/
theorem scan_window_not_recentred :
    meanStep gridRow13 0 0 (getPoint5D 0 0 gridRow13) = some row13Estimate ∧
      continueTest row13Estimate (getPoint5D 0 0 gridRow13) 1 = true ∧
      roundCoord row13Estimate.x = 4 ∧
      inSpecWindow gridRow13 row13Estimate 0 12 ∧
      (0, 12) ∉ scanWindow gridRow13 0 0 := by
  decide!

/-- Claim C2, amended: in every iteration of the loop of pixel `(y, x)`, whatever
the current estimate, the cells scanned are the in-bounds cells of the
`(2 * hs + 1) × (2 * hs + 1)` square centred on the pixel's fixed location
`(y, x)`, each scanned once. -/
theorem scan_window_centred_on_pixel (labImg : Mat) (y x : Int) :
    (∀ current, accumulate labImg y x current =
        (scanWindow labImg y x).foldl (visit labImg current) ⟨⟨0, 0, 0, 0, 0⟩, 0⟩) ∧
      (scanWindow labImg y x).Nodup ∧
      ∀ ny nx, (ny, nx) ∈ scanWindow labImg y x ↔
        labImg.inBounds ny nx ∧ |nx - x| ≤ (hs : Int) ∧ |ny - y| ≤ (hs : Int) :=
  ⟨fun _ => rfl, scanWindow_nodup labImg y x, mem_scanWindow labImg y x⟩

/-- Claim C3, refuted as stated: the loop of pixel `(0, 0)` of `gridFlatPair` stops
after 1 iteration, before `maxIter`, although the spatial displacement `1/2`
exceeds `tol_spatial`. -/
theorem early_stop_with_one_tolerance :
    pixelLoop gridFlatPair 0 0 = some flatPairExit ∧ flatPairExit.iter < maxIter ∧
      ¬ (flatPairExit.current.colorDistSq flatPairExit.prev ≤ tol_color * tol_color ∧
          flatPairExit.current.spatialDistSq flatPairExit.prev ≤ tol_spatial * tol_spatial) := by
  decide!

/-- Claim C3, amended: if the loop stops before the iteration counter reaches
`maxIter`, then after the last iteration at least one of
`colorDist(current, prev) <= tol_color` and
`spatialDist(current, prev) <= tol_spatial` holds; and an iteration after which
at least one of the two tolerances is satisfied stops the loop. -/
theorem early_stop_some_tolerance (labImg : Mat) (y x : Int) (st : LoopState)
    (h : pixelLoop labImg y x = some st) (hlt : st.iter < maxIter) :
    (st.current.colorDistSq st.prev ≤ tol_color * tol_color ∨
        st.current.spatialDistSq st.prev ≤ tol_spatial * tol_spatial) ∧
      ∀ (fuel : Nat) (current next : Point5D) (iter : Nat),
        meanStep labImg y x current = some next →
        (next.colorDistSq current ≤ tol_color * tol_color ∨
          next.spatialDistSq current ≤ tol_spatial * tol_spatial) →
        doWhile labImg y x (fuel + 1) current iter = some ⟨next, current, iter + 1⟩ := by
  constructor
  · obtain ⟨_, hc, _⟩ := doWhile_exit labImg y x maxIter _ 0 st h
    rw [continueTest_false_iff] at hc
    rcases hc with hc | hc | hc
    · exact Or.inl hc
    · exact Or.inr hc
    · omega
  · intro fuel current next iter hnext htol
    have hc : continueTest next current (iter + 1) = false := by
      rw [continueTest_false_iff]
      rcases htol with htol | htol
      · exact Or.inl htol
      · exact Or.inr (Or.inl htol)
    rw [doWhile_succ labImg y x fuel current next iter hnext, hc]
    simp

/-- Instance of the amended claim C3 at pixel `(0, 0)` of `gridFlatPair`. -/
theorem early_stop_some_tolerance_witness :
    pixelLoop gridFlatPair 0 0 = some flatPairExit ∧ flatPairExit.iter < maxIter ∧
      (flatPairExit.current.colorDistSq flatPairExit.prev ≤ tol_color * tol_color ∨
        flatPairExit.current.spatialDistSq flatPairExit.prev ≤ tol_spatial * tol_spatial) :=
  ⟨by decide!, by decide!,
    (early_stop_some_tolerance gridFlatPair 0 0 flatPairExit (by decide!) (by decide!)).1⟩

/-- Claim C4: for every grid and every pixel the convergence loop returns after
at least 1 and at most `maxIter = 5` iterations, extra fuel does not change its
result, and `applyMeanShift` returns a grid for every input grid. -/
theorem convergence_loop_terminates (labImg : Mat) :
    (∀ y x, ∃ st, pixelLoop labImg y x = some st ∧ 1 ≤ st.iter ∧ st.iter ≤ maxIter ∧
      ∀ k, doWhile labImg y x (maxIter + k) (getPoint5D y x labImg) 0 = some st) ∧
      maxIter = 5 ∧ ∃ out, applyMeanShift labImg = some out := by
  refine ⟨?_, rfl, applyMeanShift_isSome labImg⟩
  intro y x
  have hpos : 0 < maxIter := Nat.succ_pos 4
  obtain ⟨st, hst, h1, h2⟩ :=
    doWhile_some labImg y x maxIter (getPoint5D y x labImg) 0 hpos (le_refl _)
  exact ⟨st, hst, h1, h2, doWhile_fuel_add labImg y x maxIter _ 0 st hst⟩

/-- Claim C5: in any iteration in which no scanned cell qualifies (`count = 0`)
the estimate is kept (`current = prev`, no quotient is taken) and the loop stops
right after that iteration; and no iteration ever hands `operator/` a zero
divisor, since the step always yields a point. -/
theorem zero_count_keeps_estimate (labImg : Mat) (y x : Int) (current : Point5D)
    (iter fuel : Nat) (h0 : (accumulate labImg y x current).count = 0) :
    meanStep labImg y x current = some current ∧
      doWhile labImg y x (fuel + 1) current iter = some ⟨current, current, iter + 1⟩ ∧
      ∀ other : Point5D, ∃ next, meanStep labImg y x other = some next := by
  have hstep := meanStep_eq_of_zero labImg y x current h0
  refine ⟨hstep, ?_, fun other => meanStep_isSome labImg y x other⟩
  rw [doWhile_succ labImg y x fuel current current iter hstep,
    continueTest_false_of_color_eq (iter + 1) rfl rfl rfl]
  simp

/-- Instance of claim C5: on `gridDot` an estimate at `(100, 100)` has no
qualifying cell. -/
theorem zero_count_keeps_estimate_witness :
    (accumulate gridDot 0 0 ⟨100, 100, 0, 0, 0⟩).count = 0 ∧
      meanStep gridDot 0 0 ⟨100, 100, 0, 0, 0⟩ = some ⟨100, 100, 0, 0, 0⟩ ∧
      doWhile gridDot 0 0 (0 + 1) ⟨100, 100, 0, 0, 0⟩ 2 =
        some ⟨⟨100, 100, 0, 0, 0⟩, ⟨100, 100, 0, 0, 0⟩, 2 + 1⟩ ∧
      ∀ other : Point5D, ∃ next, meanStep gridDot 0 0 other = some next :=
  ⟨by decide!, zero_count_keeps_estimate gridDot 0 0 ⟨100, 100, 0, 0, 0⟩ 2 0 (by decide!)⟩

/-- Claim C6, refuted as stated: for pixel `(0, 0)` of the uniform grid
`gridFlat3` all 16 cells qualify and carry the same `l = 9868951 / 8388608`, which
is their arithmetic mean, yet the estimate computed by lines 84 and 92 has
`l = 4934475 / 4194304`. -/
theorem estimate_differs_from_exact_mean :
    (F32.qualifyingCells gridFlat3 0 0 (F32.getPoint5D 0 0 gridFlat3)).length = 16 ∧
      meanOf ((F32.qualifyingCells gridFlat3 0 0 (F32.getPoint5D 0 0 gridFlat3)).map
          fun c => F32.getPoint5D c.1 c.2 gridFlat3) =
        ⟨3 / 2, 3 / 2, 9868951 / 8388608, 2, 12⟩ ∧
      F32.meanStep gridFlat3 0 0 (F32.getPoint5D 0 0 gridFlat3) = some flat3Estimate ∧
      flat3Estimate.l ≠ 9868951 / 8388608 := by
  decide!

/-- Claim C6, amended: in every iteration the cells accumulated are exactly the
scanned in-bounds cells whose binary32 distances satisfy
`spatialDist(current, cell) <= hs` and `colorDist(current, cell) <= hr` (both
inclusive), each once; `count` is their number, `sum` is their vectors added one
by one in scan order with binary32 additions, and when at least one cell
qualifies each component of the new estimate is the binary32 quotient of that
sum by `count`. -/
theorem accumulate_binary32_sum (labImg : Mat) (y x : Int) (current : Point5D) :
    (∀ ny nx, (ny, nx) ∈ F32.qualifyingCells labImg y x current ↔
        (ny, nx) ∈ scanWindow labImg y x ∧
          F32.spatialDist current (F32.getPoint5D ny nx labImg) ≤ F32.hs ∧
          F32.colorDist current (F32.getPoint5D ny nx labImg) ≤ F32.hr) ∧
      (F32.qualifyingCells labImg y x current).Nodup ∧
      F32.accumulate labImg y x current =
        ⟨F32.sumSeq ((F32.qualifyingCells labImg y x current).map
            fun c => F32.getPoint5D c.1 c.2 labImg),
          (F32.qualifyingCells labImg y x current).length⟩ ∧
      F32.meanStep labImg y x current =
        if (F32.qualifyingCells labImg y x current).length = 0 then some current
        else
          some
            ⟨F32.fdiv (F32.sumSeq ((F32.qualifyingCells labImg y x current).map
                  fun c => F32.getPoint5D c.1 c.2 labImg)).x
                (F32.ofInt ((F32.qualifyingCells labImg y x current).length : Int)),
              F32.fdiv (F32.sumSeq ((F32.qualifyingCells labImg y x current).map
                  fun c => F32.getPoint5D c.1 c.2 labImg)).y
                (F32.ofInt ((F32.qualifyingCells labImg y x current).length : Int)),
              F32.fdiv (F32.sumSeq ((F32.qualifyingCells labImg y x current).map
                  fun c => F32.getPoint5D c.1 c.2 labImg)).l
                (F32.ofInt ((F32.qualifyingCells labImg y x current).length : Int)),
              F32.fdiv (F32.sumSeq ((F32.qualifyingCells labImg y x current).map
                  fun c => F32.getPoint5D c.1 c.2 labImg)).a
                (F32.ofInt ((F32.qualifyingCells labImg y x current).length : Int)),
              F32.fdiv (F32.sumSeq ((F32.qualifyingCells labImg y x current).map
                  fun c => F32.getPoint5D c.1 c.2 labImg)).b
                (F32.ofInt ((F32.qualifyingCells labImg y x current).length : Int))⟩ := by
  refine ⟨?_, ?_, F32.accumulate_eq_seq labImg y x current, ?_⟩
  · intro ny nx
    unfold F32.qualifyingCells
    rw [List.mem_filter]
    simp only [F32.qualifies, Bool.and_eq_true, decide_eq_true_eq]
  · exact (scanWindow_nodup labImg y x).filter _
  · unfold F32.meanStep
    simp only [F32.accumulate_eq_seq]
    by_cases hz : (F32.qualifyingCells labImg y x current).length = 0
    · rw [if_pos hz, if_neg (by omega)]
    · have hne : F32.ofInt ((F32.qualifyingCells labImg y x current).length : Int) ≠ 0 :=
        ne_of_gt (F32.ofInt_natCast_pos _ (Nat.pos_of_ne_zero hz))
      rw [if_neg hz, if_pos (Nat.pos_of_ne_zero hz), F32.div, if_neg hne]

/-- Claim C7, evaluated on the code's binary32 arithmetic: the pass over the
uniform 1 × 3 grid `gridFlat19`, every cell `(19, 130, 140)`, returns a grid
whose cells all hold `(18, 130, 140)`; and on the uniform 4 × 4 grid `gridFlat3`,
every cell `(3, 130, 140)`, the first pixel processed is written as
`(2, 130, 140)`. -/
theorem uniform_grid_changed_binary32 :
    (∀ i j, gridFlat19.pix i j = ⟨19, 130, 140⟩) ∧
      (F32.applyMeanShift gridFlat19).map
          (fun out => (pixelOrder 1 3).map fun p => out.pix p.1 p.2) =
        some [⟨18, 130, 140⟩, ⟨18, 130, 140⟩, ⟨18, 130, 140⟩] ∧
      (∀ i j, gridFlat3.pix i j = ⟨3, 130, 140⟩) ∧
      (F32.processPixel gridFlat3 0 0).map (fun out => out.pix 0 0) = some ⟨2, 130, 140⟩ :=
  ⟨fun _ _ => rfl, by decide!, fun _ _ => rfl, by decide!⟩

/-- Claim C8, evaluated on the code's binary32 arithmetic: on `gridTwoRegion`, whose
left half holds `(19, 128, 128)` and right half `(255, 128, 128)` at colour
distance above `hr`, the pass rewrites the left half to `(18, 128, 128)`. -/
theorem two_region_grid_changed_binary32 :
    F32.hr < F32.colorDist (F32.getPoint5D 0 0 gridTwoRegion) (F32.getPoint5D 0 3 gridTwoRegion) ∧
      (pixelOrder 1 6).map (fun p => gridTwoRegion.pix p.1 p.2) =
        [⟨19, 128, 128⟩, ⟨19, 128, 128⟩, ⟨19, 128, 128⟩,
          ⟨255, 128, 128⟩, ⟨255, 128, 128⟩, ⟨255, 128, 128⟩] ∧
      (F32.applyMeanShift gridTwoRegion).map
          (fun out => (pixelOrder 1 6).map fun p => out.pix p.1 p.2) =
        some [⟨18, 128, 128⟩, ⟨18, 128, 128⟩, ⟨18, 128, 128⟩,
          ⟨255, 128, 128⟩, ⟨255, 128, 128⟩, ⟨255, 128, 128⟩] := by
  decide!

/-- Claim C9: a pixel for which every other in-bounds cell of its window lies
farther than `hr` in colour runs exactly 1 iteration, and the value written back
is the pixel's original three bytes. -/
theorem isolated_pixel_one_iteration (labImg : Mat) (y x : Int) (_hb : labImg.inBounds y x)
    (h : ∀ ny nx, labImg.inBounds ny nx → |nx - x| ≤ (hs : Int) → |ny - y| ≤ (hs : Int) →
      (ny, nx) ≠ (y, x) →
      hr * hr < (getPoint5D y x labImg).colorDistSq (getPoint5D ny nx labImg)) :
    ∃ st, pixelLoop labImg y x = some st ∧ st.iter = 1 ∧
      toVec3b st.current = labImg.pix y x ∧ processPixel labImg y x = some labImg := by
  have H : ∀ c ∈ scanWindow labImg y x, labImg.pix c.1 c.2 = labImg.pix y x ∨
      hr * hr < (getPoint5D y x labImg).colorDistSq (getPoint5D c.1 c.2 labImg) := by
    rintro ⟨ny, nx⟩ hc
    obtain ⟨hcb, hx, hy⟩ := (mem_scanWindow labImg y x ny nx).1 hc
    by_cases he : (ny, nx) = (y, x)
    · left
      rw [Prod.mk.injEq] at he
      rw [he.1, he.2]
    · right
      exact h ny nx hcb hx hy he
  obtain ⟨st, hst, hiter, _, hv⟩ := pixelLoop_same_or_far labImg y x H
  exact ⟨st, hst, hiter, hv, processPixel_same_or_far labImg y x H⟩

/-- Instance of claim C9 at the corner `(0, 0)` of the 2 × 2 grid `gridCorner`. -/
theorem isolated_pixel_one_iteration_witness :
    gridCorner.inBounds 0 0 ∧
      (∀ ny nx, gridCorner.inBounds ny nx → |nx - 0| ≤ (hs : Int) → |ny - 0| ≤ (hs : Int) →
        (ny, nx) ≠ (0, 0) →
        hr * hr < (getPoint5D 0 0 gridCorner).colorDistSq (getPoint5D ny nx gridCorner)) ∧
      ∃ st, pixelLoop gridCorner 0 0 = some st ∧ st.iter = 1 ∧
        toVec3b st.current = gridCorner.pix 0 0 ∧ processPixel gridCorner 0 0 = some gridCorner :=
  have hfar : ∀ ny nx, gridCorner.inBounds ny nx → |nx - 0| ≤ (hs : Int) →
      |ny - 0| ≤ (hs : Int) → (ny, nx) ≠ (0, 0) →
      hr * hr < (getPoint5D 0 0 gridCorner).colorDistSq (getPoint5D ny nx gridCorner) := by
    intro ny nx _ _ _ hne
    have hne2 : ¬ (ny = 0 ∧ nx = 0) := fun hh => hne (by rw [hh.1, hh.2])
    simp only [getPoint5D, gridCorner, if_neg hne2, Point5D.colorDistSq, hr]
    decide!
  ⟨by decide, hfar, isolated_pixel_one_iteration gridCorner 0 0 (by decide) hfar⟩

/-- Claim C10, evaluated on the code's binary32 arithmetic: pixel `(0, 0)` of the
uniform grid `gridFlat247` leaves its loop after 1 iteration, and the bytes written
back are `(246, 111, 198)`, not its own `(247, 111, 198)`. -/
theorem flat_window_changed_binary32 :
    (∀ i j, gridFlat247.pix i j = ⟨247, 111, 198⟩) ∧
      (F32.pixelLoop gridFlat247 0 0).map
          (fun st => (st.iter, F32.toVec3b st.current)) = some (1, ⟨246, 111, 198⟩) ∧
      (F32.processPixel gridFlat247 0 0).map (fun out => out.pix 0 0) =
        some ⟨246, 111, 198⟩ :=
  ⟨fun _ _ => rfl, by decide!, by decide!⟩

/-- Claim C11: with the components read as real numbers, `colorDist` is the
Euclidean distance between the colour triples `(l, a, b)` and does not depend on
`x` and `y`, it is non-negative, and it is zero exactly when the two points have
identical `l`, `a` and `b`; `spatialDist` is the Euclidean distance between the
pairs `(x, y)` and does not depend on the colour channels. -/
theorem colorDist_spatialDist_euclidean (p q : Point5D) :
    Real.sqrt ((p.colorDistSq q : ℚ) : ℝ) =
        dist (EuclideanSpace.equiv (Fin 3) ℝ |>.symm ![(p.l : ℝ), (p.a : ℝ), (p.b : ℝ)])
          (EuclideanSpace.equiv (Fin 3) ℝ |>.symm ![(q.l : ℝ), (q.a : ℝ), (q.b : ℝ)]) ∧
      (∀ x1 y1 x2 y2 : ℚ,
        (Point5D.mk x1 y1 p.l p.a p.b).colorDistSq (Point5D.mk x2 y2 q.l q.a q.b) =
          p.colorDistSq q) ∧
      0 ≤ Real.sqrt ((p.colorDistSq q : ℚ) : ℝ) ∧
      (Real.sqrt ((p.colorDistSq q : ℚ) : ℝ) = 0 ↔ p.l = q.l ∧ p.a = q.a ∧ p.b = q.b) ∧
      Real.sqrt ((p.spatialDistSq q : ℚ) : ℝ) =
        dist (EuclideanSpace.equiv (Fin 2) ℝ |>.symm ![(p.x : ℝ), (p.y : ℝ)])
          (EuclideanSpace.equiv (Fin 2) ℝ |>.symm ![(q.x : ℝ), (q.y : ℝ)]) ∧
      (∀ l1 a1 b1 l2 a2 b2 : ℚ,
        (Point5D.mk p.x p.y l1 a1 b1).spatialDistSq (Point5D.mk q.x q.y l2 a2 b2) =
          p.spatialDistSq q) := by
  refine ⟨?_, fun _ _ _ _ => rfl, Real.sqrt_nonneg _, ?_, ?_, fun _ _ _ _ _ _ => rfl⟩
  · rw [EuclideanSpace.dist_eq, Fin.sum_univ_three]
    simp only [Real.dist_eq, sq_abs]
    congr 1
    simp [Point5D.colorDistSq]
    ring
  · have hnn : (0 : ℝ) ≤ ((p.colorDistSq q : ℚ) : ℝ) := by
      have : (0 : ℚ) ≤ p.colorDistSq q := by
        unfold Point5D.colorDistSq
        exact add_nonneg (add_nonneg (mul_self_nonneg _) (mul_self_nonneg _)) (mul_self_nonneg _)
      exact_mod_cast this
    rw [Real.sqrt_eq_zero hnn]
    constructor
    · intro h
      have h0 : p.colorDistSq q = 0 := by exact_mod_cast h
      unfold Point5D.colorDistSq at h0
      have h1 : (p.l - q.l) * (p.l - q.l) = 0 := by nlinarith [mul_self_nonneg (p.l - q.l), mul_self_nonneg (p.a - q.a), mul_self_nonneg (p.b - q.b)]
      have h2 : (p.a - q.a) * (p.a - q.a) = 0 := by nlinarith [mul_self_nonneg (p.l - q.l), mul_self_nonneg (p.a - q.a), mul_self_nonneg (p.b - q.b)]
      have h3 : (p.b - q.b) * (p.b - q.b) = 0 := by nlinarith [mul_self_nonneg (p.l - q.l), mul_self_nonneg (p.a - q.a), mul_self_nonneg (p.b - q.b)]
      exact ⟨sub_eq_zero.mp (mul_self_eq_zero.mp h1), sub_eq_zero.mp (mul_self_eq_zero.mp h2),
        sub_eq_zero.mp (mul_self_eq_zero.mp h3)⟩
    · rintro ⟨h1, h2, h3⟩
      simp [Point5D.colorDistSq, h1, h2, h3]
  · rw [EuclideanSpace.dist_eq, Fin.sum_univ_two]
    simp only [Real.dist_eq, sq_abs]
    congr 1
    simp [Point5D.spatialDistSq]
    ring

/-- Claim C13: processing pixel `(y, x)` performs one assignment, to cell
`(y, x)`, which leaves every other cell and the dimensions as they were; the pass
processes the cells of `pixelOrder`, in which every in-bounds cell occurs exactly
once and no other cell occurs, and returns a grid of the input's dimensions. -/
theorem pass_writes_each_cell_once (labImg : Mat) :
    (∀ (img : Mat) (y x : Int), ∃ v, processPixel img y x = some (img.set y x v) ∧
        (img.set y x v).rows = img.rows ∧ (img.set y x v).cols = img.cols ∧
        ∀ i j, (img.set y x v).pix i j = if i = y ∧ j = x then v else img.pix i j) ∧
      applyMeanShift labImg = (pixelOrder labImg.rows labImg.cols).foldlM processCell labImg ∧
      (∀ i j, (pixelOrder labImg.rows labImg.cols).countP (fun p => decide (p = (i, j))) =
        if labImg.inBounds i j then 1 else 0) ∧
      ∃ out, applyMeanShift labImg = some out ∧ out.rows = labImg.rows ∧
        out.cols = labImg.cols := by
  refine ⟨?_, applyMeanShift_eq_foldlM labImg, ?_, ?_⟩
  · intro img y x
    obtain ⟨img2, h2⟩ := processPixel_isSome img y x
    obtain ⟨st, _, hset⟩ := processPixel_spec img img2 y x h2
    exact ⟨toVec3b st.current, by rw [h2, hset], rfl, rfl, fun _ _ => rfl⟩
  · intro i j
    by_cases hb : labImg.inBounds i j
    · rw [if_pos hb]
      exact List.count_eq_one_of_mem (pixelOrder_nodup _ _) ((mem_pixelOrder _ _ i j).2 hb)
    · rw [if_neg hb]
      rw [List.countP_eq_zero]
      intro p hp hpe
      rw [decide_eq_true_eq] at hpe
      subst hpe
      exact hb ((mem_pixelOrder _ _ i j).1 hp)
  · obtain ⟨out, hout⟩ := applyMeanShift_isSome labImg
    have hfold := hout
    rw [applyMeanShift_eq_foldlM] at hfold
    obtain ⟨h1, h2, _⟩ := foldlM_processPixel_frame _ labImg out hfold
    exact ⟨out, hout, h1, h2⟩

/-- Claim C14: after each iteration the loop proceeds to another one exactly
when `colorDist(current, prev) > tol_color`, `spatialDist(current, prev) >
tol_spatial` and `iter < maxIter` all hold, and otherwise it is left with the
values of that iteration; so when the loop is left, the colour displacement is
within `tol_color`, or the spatial one within `tol_spatial`, or `iter` has
reached `maxIter`. -/
theorem loop_continues_iff_all_three (labImg : Mat) (y x : Int) (fuel : Nat)
    (current : Point5D) (iter : Nat) :
    (∃ next, meanStep labImg y x current = some next ∧
        doWhile labImg y x (fuel + 1) current iter =
          (if tol_color * tol_color < next.colorDistSq current ∧
              tol_spatial * tol_spatial < next.spatialDistSq current ∧ iter + 1 < maxIter then
            doWhile labImg y x fuel next (iter + 1)
          else some ⟨next, current, iter + 1⟩) ∧
        ((tol_color * tol_color < next.colorDistSq current ∧
            tol_spatial * tol_spatial < next.spatialDistSq current ∧ iter + 1 < maxIter) ↔
          (((tol_color : ℚ) : ℝ) < Real.sqrt ((next.colorDistSq current : ℚ) : ℝ) ∧
            ((tol_spatial : ℚ) : ℝ) < Real.sqrt ((next.spatialDistSq current : ℚ) : ℝ) ∧
            iter + 1 < maxIter))) ∧
      ∃ st, pixelLoop labImg y x = some st ∧
        (st.current.colorDistSq st.prev ≤ tol_color * tol_color ∨
          st.current.spatialDistSq st.prev ≤ tol_spatial * tol_spatial ∨ st.iter = maxIter) := by
  constructor
  · obtain ⟨next, hnext⟩ := meanStep_isSome labImg y x current
    refine ⟨next, hnext, ?_, ?_⟩
    · rw [doWhile_succ labImg y x fuel current next iter hnext]
      by_cases hc : continueTest next current (iter + 1) = true
      · have hc2 := hc
        simp only [continueTest, Bool.and_eq_true, decide_eq_true_eq, and_assoc] at hc2
        rw [if_pos hc, if_pos hc2]
      · have hc2 := hc
        simp only [continueTest, Bool.and_eq_true, decide_eq_true_eq, and_assoc] at hc2
        rw [if_neg hc, if_neg hc2]
    · rw [← continueTest_iff_sqrt]
      simp only [continueTest, Bool.and_eq_true, decide_eq_true_eq, and_assoc]
  · have hpos : 0 < maxIter := Nat.succ_pos 4
    obtain ⟨st, hst, _, hle⟩ :=
      doWhile_some labImg y x maxIter (getPoint5D y x labImg) 0 hpos (le_refl _)
    obtain ⟨_, hc, _⟩ := doWhile_exit labImg y x maxIter _ 0 st hst
    rw [continueTest_false_iff] at hc
    refine ⟨st, hst, ?_⟩
    rcases hc with hc | hc | hc
    · exact Or.inl hc
    · exact Or.inr (Or.inl hc)
    · exact Or.inr (Or.inr (le_antisymm hle hc))

/-- Claim C15, evaluated on the code's binary32 arithmetic: every cell of `gridFlat19`
has first byte 19, so 19 is the minimum over the window of pixel `(0, 0)`, yet
the first byte written back for that pixel is 18; the truncated integers are
`18`, `130`, `140`. -/
theorem writeback_below_window_minimum_binary32 :
    (∀ i j, (gridFlat19.pix i j).c0 = 19) ∧
      (F32.pixelLoop gridFlat19 0 0).map
          (fun st => (truncToInt (F32.fdiv (F32.fmul st.current.l 255) 100),
            truncToInt (F32.fadd st.current.a 128), truncToInt (F32.fadd st.current.b 128))) =
        some (18, 130, 140) ∧
      (F32.processPixel gridFlat19 0 0).map (fun out => (out.pix 0 0).c0) = some 18 :=
  ⟨fun _ _ => rfl, by decide!, by decide!⟩

/-- Claim C16: for every byte triple, converting it with `getPoint5D` and
converting the point back with lines 101-106 returns the triple; the truncated
integers are the bytes themselves, so nothing is clamped. -/
theorem byte_roundtrip (color : Vec3b) (i j : Int) :
    truncToInt ((labPoint i j color).l * 255 / 100) = ((color.c0.val : Nat) : Int) ∧
      truncToInt ((labPoint i j color).a + 128) = ((color.c1.val : Nat) : Int) ∧
      truncToInt ((labPoint i j color).b + 128) = ((color.c2.val : Nat) : Int) ∧
      toVec3b (labPoint i j color) = color ∧
      ∀ labImg : Mat, getPoint5D i j labImg = labPoint i j (labImg.pix i j) ∧
        toVec3b (getPoint5D i j labImg) = labImg.pix i j := by
  have e0 : (color.c0.val : ℚ) * 100 / 255 * 255 / 100 = ((color.c0.val : Nat) : ℚ) := by
    field_simp
  have e1 : (color.c1.val : ℚ) - 128 + 128 = ((color.c1.val : Nat) : ℚ) := by ring
  have e2 : (color.c2.val : ℚ) - 128 + 128 = ((color.c2.val : Nat) : ℚ) := by ring
  refine ⟨?_, ?_, ?_, ?_, fun labImg => ⟨rfl, toVec3b_getPoint5D labImg i j⟩⟩
  · simp only [labPoint, e0, truncToInt_natCast]
  · simp only [labPoint, e1, truncToInt_natCast]
  · simp only [labPoint, e2, truncToInt_natCast]
  · simp only [toVec3b, labPoint, e0, e1, e2, truncToInt_natCast, saturate_cast_val]

/-- Claim C17: for an in-bounds pixel the loop is entered with the pixel's own
point, its own cell is scanned and lies at distance 0 in space and in colour, so
it qualifies and `count >= 1` in the first iteration; an iteration with
`count = 0` therefore starts from an estimate that has moved away from the
pixel's own point, which no longer qualifies. -/
theorem own_cell_qualifies_first (labImg : Mat) (y x : Int) (hb : labImg.inBounds y x) :
    pixelLoop labImg y x = doWhile labImg y x maxIter (getPoint5D y x labImg) 0 ∧
      (getPoint5D y x labImg).spatialDistSq (getPoint5D y x labImg) = 0 ∧
      (getPoint5D y x labImg).colorDistSq (getPoint5D y x labImg) = 0 ∧
      (y, x) ∈ qualifyingCells labImg y x (getPoint5D y x labImg) ∧
      1 ≤ (accumulate labImg y x (getPoint5D y x labImg)).count ∧
      ∀ current, (accumulate labImg y x current).count = 0 →
        current ≠ getPoint5D y x labImg ∧ qualifies current (getPoint5D y x labImg) = false := by
  have hmem : ∀ current, qualifies current (getPoint5D y x labImg) = true →
      (y, x) ∈ qualifyingCells labImg y x current := by
    intro current hq
    unfold qualifyingCells
    rw [List.mem_filter]
    exact ⟨self_mem_scanWindow labImg y x hb, hq⟩
  have hcount : ∀ current, qualifies current (getPoint5D y x labImg) = true →
      1 ≤ (accumulate labImg y x current).count := by
    intro current hq
    rw [accumulate_eq]
    exact List.length_pos_of_mem (hmem current hq)
  refine ⟨rfl, ?_, ?_, hmem _ (qualifies_self _), hcount _ (qualifies_self _), ?_⟩
  · simp [Point5D.spatialDistSq]
  · simp [Point5D.colorDistSq]
  · intro current h0
    have hnq : qualifies current (getPoint5D y x labImg) = false := by
      by_contra hq
      have := hcount current (by simpa using hq)
      omega
    refine ⟨?_, hnq⟩
    intro heq
    rw [heq, qualifies_self] at hnq
    exact absurd hnq (by simp)

/-- Instance of claim C17 at the only pixel of `gridDot`, with an estimate at
`(100, 100)` for the iteration without qualifying cell. -/
theorem own_cell_qualifies_first_witness :
    gridDot.inBounds 0 0 ∧
      1 ≤ (accumulate gridDot 0 0 (getPoint5D 0 0 gridDot)).count ∧
      (accumulate gridDot 0 0 ⟨100, 100, 0, 0, 0⟩).count = 0 ∧
      (⟨100, 100, 0, 0, 0⟩ : Point5D) ≠ getPoint5D 0 0 gridDot ∧
      qualifies ⟨100, 100, 0, 0, 0⟩ (getPoint5D 0 0 gridDot) = false :=
  ⟨by decide, (own_cell_qualifies_first gridDot 0 0 (by decide)).2.2.2.2.1, by decide!,
    (own_cell_qualifies_first gridDot 0 0 (by decide)).2.2.2.2.2 ⟨100, 100, 0, 0, 0⟩ (by decide!)⟩

/-- Claim C18: for two grids of the same dimensions that agree on every in-bounds
cell of the window of pixel `(y, x)`, the convergence loop of `(y, x)` returns
the same state on both, hence runs the same number of iterations and writes the
same bytes. -/
theorem pixelLoop_depends_on_window (g1 g2 : Mat) (y x : Int) (hrows : g1.rows = g2.rows)
    (hcols : g1.cols = g2.cols) (hb : g1.inBounds y x)
    (h : ∀ ny nx, g1.inBounds ny nx → |nx - x| ≤ (hs : Int) → |ny - y| ≤ (hs : Int) →
      g1.pix ny nx = g2.pix ny nx) :
    ∃ st, pixelLoop g1 y x = some st ∧ pixelLoop g2 y x = some st ∧
      ∃ v, v = toVec3b st.current ∧ processPixel g1 y x = some (g1.set y x v) ∧
        processPixel g2 y x = some (g2.set y x v) := by
  have hcells : ∀ c ∈ scanWindow g1 y x, g1.pix c.1 c.2 = g2.pix c.1 c.2 := by
    rintro ⟨ny, nx⟩ hc
    obtain ⟨hcb, hx, hy⟩ := (mem_scanWindow g1 y x ny nx).1 hc
    exact h ny nx hcb hx hy
  have hinit : getPoint5D y x g1 = getPoint5D y x g2 := by
    simp only [getPoint5D, hcells (y, x) (self_mem_scanWindow g1 y x hb)]
  have hpos : 0 < maxIter := Nat.succ_pos 4
  obtain ⟨st, hst, _, _⟩ := doWhile_some g1 y x maxIter (getPoint5D y x g1) 0 hpos (le_refl _)
  have hst2 : pixelLoop g2 y x = some st := by
    unfold pixelLoop
    rw [← hinit, ← doWhile_congr g1 g2 y x (meanStep_congr g1 g2 y x hrows hcols hcells)]
    exact hst
  refine ⟨st, hst, hst2, toVec3b st.current, rfl, ?_, ?_⟩
  · unfold processPixel
    rw [show pixelLoop g1 y x = some st from hst, Option.map_some']
  · unfold processPixel
    rw [hst2, Option.map_some']

/-- Instance of claim C18 at pixel `(0, 0)` of `gridLong` and `gridLongEdited`, which
differ only at column 15, outside the window. -/
theorem pixelLoop_depends_on_window_witness :
    gridLong.rows = gridLongEdited.rows ∧ gridLong.cols = gridLongEdited.cols ∧
      gridLong.inBounds 0 0 ∧
      (∀ ny nx, gridLong.inBounds ny nx → |nx - 0| ≤ (hs : Int) → |ny - 0| ≤ (hs : Int) →
        gridLong.pix ny nx = gridLongEdited.pix ny nx) ∧
      gridLong.pix 0 15 ≠ gridLongEdited.pix 0 15 ∧
      ∃ st, pixelLoop gridLong 0 0 = some st ∧ pixelLoop gridLongEdited 0 0 = some st ∧
        ∃ v, v = toVec3b st.current ∧ processPixel gridLong 0 0 = some (gridLong.set 0 0 v) ∧
          processPixel gridLongEdited 0 0 = some (gridLongEdited.set 0 0 v) :=
  have hagree : ∀ ny nx, gridLong.inBounds ny nx → |nx - 0| ≤ (hs : Int) →
      |ny - 0| ≤ (hs : Int) → gridLong.pix ny nx = gridLongEdited.pix ny nx := by
    intro ny nx _ hx _
    have h8 : (hs : Int) = 8 := rfl
    rw [h8, abs_le] at hx
    have hne : ¬ nx = 15 := by omega
    simp only [gridLong, gridLongEdited, if_neg hne]
  ⟨rfl, rfl, by decide, hagree, by decide,
    pixelLoop_depends_on_window gridLong gridLongEdited 0 0 rfl rfl (by decide) hagree⟩

end MeanShift
